import Mathlib

/-!
Verification of the regex-js compiler (src/regex.js, first/primary variant).

The JavaScript source is shallowly embedded: every stateful loop becomes a
fold or an explicitly fuelled recursion, JS objects used as dictionaries
become insertion-ordered association lists, and the distinguished `null`
symbol (epsilon) becomes `Option Char` with `none` for epsilon.  Fuel
parameters model the host's unbounded recursion: a result `none` means the
fuel ran out (for genuinely diverging JS code the result is `none` for
every fuel).  JS exceptions (`throw "ERROR"`, `throw "PARSE ERROR"`) and
TypeErrors become `Except String` errors.

Modelling note: JS `Object.keys` lists integer-like keys first in numeric
order and other keys in insertion order.  The inner DFA tables are keyed
by single-character symbols plus the flag keys `start`/`end`; we model the
insertion order (symbols set during subset construction, then the two
flags, then symbols added by dead-state completion), which coincides with
the JS order whenever the alphabet contains no decimal-digit characters.
-/

namespace RegexJS

/-- Repetition range `[min, max]`; `-1` denotes "unbounded" as in the JS. -/
abbrev Reps := Int × Int

/-- Tokens of the first variant of `regex.js`: `type` is one of
`'char'`/`'meta'`/`'expr'`; an `expr` token's value is either a single
token or an array of tokens (the JS sniffs `value.constructor`). -/
inductive Tok where
  | tchar : Option Char → Reps → Tok
  | tmeta : Char → Reps → Tok
  | texprT : Tok → Reps → Tok
  | texprA : List Tok → Reps → Tok

/-- `token.repetitions`. -/
def Tok.reps : Tok → Reps
  | .tchar _ r => r
  | .tmeta _ r => r
  | .texprT _ r => r
  | .texprA _ r => r

/-- `token.ChangeRepetitions(r)` / assignment to `token.repetitions`. -/
def Tok.withReps : Tok → Reps → Tok
  | .tchar c _, r => .tchar c r
  | .tmeta c _, r => .tmeta c r
  | .texprT t _, r => .texprT t r
  | .texprA l _, r => .texprA l r

/-- JS `token.type == 'expr'`. -/
def Tok.isExpr : Tok → Bool
  | .texprT _ _ => true
  | .texprA _ _ => true
  | _ => false

/-- JS `token.value == c` (loose comparison of the value against a
one-character string; object-valued `expr` tokens compare unequal). -/
def Tok.valueIsChar (t : Tok) (c : Char) : Bool :=
  match t with
  | .tchar (some d) _ => d == c
  | .tmeta d _ => d == c
  | _ => false

/-- JS `token.type == 'meta' && token.value == '|'`. -/
def Tok.isMetaOr : Tok → Bool
  | .tmeta d _ => d == '|'
  | _ => false

/-- JS `parseInt` on a non-empty string of decimal digits. -/
def parseDigits (ds : List Char) : Nat :=
  ds.foldl (fun a c => a * 10 + (c.toNat - '0'.toNat)) 0

/-- Tokenizer state: the accumulated token list plus the `notCommand`
escape flag and the `longRep` repetition-count accumulator (its `valueA`
and `valueB` digit strings and the 0/1 field counter `val`).  The
`brackets` accumulator of the JS is created but never activated (bracket
handling is commented out), so only its `isTrue` flag is modelled. -/
structure LexSt where
  tokens : List Tok
  notCommand : Bool
  brActive : Bool
  lrActive : Bool
  lrA : List Char
  lrB : List Char
  lrVal : Nat

def LexSt.init : LexSt := ⟨[], false, false, false, [], [], 0⟩

/-- `tokens[tokens.length - 1].ChangeRepetitions(r)`; a JS `TypeError`
(no preceding token) becomes an error value. -/
def changeRepsLast (ts : List Tok) (r : Reps) : Except String (List Tok) :=
  match ts.getLast? with
  | none => .error "TYPE ERROR"
  | some t => .ok (ts.dropLast ++ [t.withReps r])

/-- One character of `Regex.prototype.TokenizeRegex` (first variant),
with the branches in source order. -/
def tokStep (st : LexSt) (c : Char) : Except String LexSt :=
  if st.lrActive && st.brActive then
    .error "ERROR"
  else if st.lrActive then
    -- A longRep character must be a digit, a comma, or a brace.
    if c.isDigit then
      if st.lrVal == 0 then .ok { st with lrA := st.lrA ++ [c] }
      else .ok { st with lrB := st.lrB ++ [c] }
    else if c == ',' then
      if st.lrVal == 0 then .ok { st with lrVal := 1 }
      else .error "ERROR"
    else if c == '\x7d' then
      let valA : Int := if st.lrA == [] then 0 else (parseDigits st.lrA : Int)
      let valB : Int :=
        if st.lrVal == 0 then valA
        else if st.lrB == [] then -1
        else (parseDigits st.lrB : Int)
      if valB != -1 && valB < valA then .error "PARSE ERROR"
      else do
        let ts ← changeRepsLast st.tokens (valA, valB)
        .ok { st with tokens := ts, lrActive := false, lrA := [], lrB := [], lrVal := 0 }
    else .error "ERROR"
  else if c == '\\' then
    .ok { st with notCommand := true }
  else if st.notCommand then
    .ok { st with tokens := st.tokens ++ [.tchar (some c) (1, 1)], notCommand := false }
  else if c == '[' || c == '(' || c == ')' || c == '|' then
    .ok { st with tokens := st.tokens ++ [.tmeta c (1, 1)] }
  else if c == '\x7b' then
    .ok { st with lrActive := true }
  else if c == ']' || c == '\x7d' || c == ',' then
    .error "ERROR"
  else if c == '*' then
    do let ts ← changeRepsLast st.tokens (0, -1); .ok { st with tokens := ts }
  else if c == '+' then
    do let ts ← changeRepsLast st.tokens (1, -1); .ok { st with tokens := ts }
  else if c == '?' then
    do let ts ← changeRepsLast st.tokens (0, 1); .ok { st with tokens := ts }
  else
    .ok { st with tokens := st.tokens ++ [.tchar (some c) (1, 1)] }

/-- `Regex.prototype.TokenizeRegex` (first variant). -/
def tokenizeRegex (regex : List Char) : Except String (List Tok) := do
  let st ← regex.foldlM tokStep LexSt.init
  .ok st.tokens

/-- `Regex.prototype.CharsToExprs`: wrap each character token (with its
repetitions reset to `(1,1)`) in an `expr` token carrying the original
repetitions; every other token is copied unchanged. -/
def charsToExprs (tokens : List Tok) : List Tok :=
  tokens.map fun t =>
    match t with
    | .tchar c r => .texprT (.tchar c (1, 1)) r
    | other => other

/-- `Regex.prototype.GetEmptyOr`: the expression `(empty | a)` (first
variant; the empty literal is a `char` token with a `null` value). -/
def getEmptyOr (orToken : Tok) : Tok :=
  .texprA [.texprT (.tchar none (1, 1)) (1, 1), .tmeta '|' (1, 1), orToken] (1, 1)

/-- `Regex.prototype.PushExpressions`: append `n` copies of a token. -/
def pushExpressions (tokens : List Tok) (n : Nat) (token : Tok) : List Tok :=
  tokens ++ List.replicate n token

/-- `Regex.prototype.HasRepetitions(token, [[0,-1],[1,1]])`, the only
repetition-option list the merger uses. -/
def hasStarOrOnce (t : Tok) : Bool :=
  t.reps == ((0 : Int), (-1 : Int)) || t.reps == ((1 : Int), (1 : Int))

/-- One step of the `MergeExpressions` main loop: try to merge the
incoming token with the last one or two tokens of the output array. -/
def mergeStep (newTokens : List Tok) (tok2 : Tok) : List Tok :=
  if newTokens.length < 2 then newTokens ++ [tok2]
  else
    match newTokens.getLast? , (newTokens.dropLast).getLast? with
    | some token1, some token0 =>
      -- If a single expression (surrounded by parentheses) is found, remove the parentheses.
      if token0.valueIsChar '(' && token1.isExpr && tok2.valueIsChar ')' then
        (newTokens.dropLast).dropLast ++ [token1.withReps tok2.reps]
      -- If an expression of the form 'a|b' is found, merge it into a single expression.
      else if token0.isExpr && token1.isMetaOr && tok2.isExpr then
        (newTokens.dropLast).dropLast ++
          [.texprA [token0, .tmeta '|' (1, 1), tok2] (1, 1)]
      -- If an expression 'ab' is found, try to merge this into a single expression.
      else if token1.isExpr && tok2.isExpr then
        if hasStarOrOnce token1 && hasStarOrOnce tok2 then
          newTokens.dropLast ++ [.texprA [token1, tok2] (1, 1)]
        else newTokens ++ [tok2]
      else newTokens ++ [tok2]
    | _, _ => newTokens ++ [tok2]

/-- `Regex.prototype.MergeExpressions` (first variant): the special
two-expression case falls through to the main loop when the repetition
check fails, exactly as in the source. -/
def mergeExpressions (tokens : List Tok) : List Tok :=
  match tokens with
  | [t0, t1] =>
    if t0.isExpr && t1.isExpr then
      if hasStarOrOnce t0 && hasStarOrOnce t1 then [.texprA [t0, t1] (1, 1)]
      else [t0, t1]
    else [t0, t1]
  | t0 :: t1 :: rest => rest.foldl mergeStep [t0, t1]
  | short => short

/-- `Regex.prototype.ExpandExpressions` (first variant), parameterised by
the nested `TokenArrayToTree` call (`tat`) used to reduce each
replacement list to a single token, whose head (`[0]` in the JS) is
spliced back in. -/
def expandWith (tat : List Tok → Except String (List Tok)) :
    List Tok → Except String (List Tok)
  | [] => .ok []
  | tok :: rest =>
    if tok.isExpr then
      let (minimum, maximum) := tok.reps
      -- The token is a*, so add it as is.
      if minimum == 0 && maximum == -1 then do
        let tail ← expandWith tat rest
        .ok (tok :: tail)
      -- The token is a{0,n} where n > 0, so add n (empty|a) expressions.
      else if minimum == 0 && maximum > 0 then do
        let reduced ← tat (pushExpressions [] maximum.toNat (getEmptyOr tok))
        let tail ← expandWith tat rest
        .ok (reduced.headD tok :: tail)
      -- The token is a{n,n} where n > 0, so add n 'a' expressions.
      else if minimum > 0 && minimum == maximum then do
        let reduced ← tat (pushExpressions [] minimum.toNat (tok.withReps (1, 1)))
        let tail ← expandWith tat rest
        .ok (reduced.headD tok :: tail)
      -- The token is a{n,m} where 0 < n < m.
      else if minimum > 0 && minimum < maximum then do
        let once := tok.withReps (1, 1)
        let reduced ← tat
          (pushExpressions (pushExpressions [] minimum.toNat once)
            (maximum - minimum).toNat (getEmptyOr once))
        let tail ← expandWith tat rest
        .ok (reduced.headD tok :: tail)
      -- The token is a{n,-1}, so add n 'a' expressions and a single a*.
      else if minimum > 0 && maximum == -1 then do
        let reduced ← tat
          (pushExpressions [] minimum.toNat (tok.withReps (1, 1)) ++
            [tok.withReps (0, -1)])
        let tail ← expandWith tat rest
        .ok (reduced.headD tok :: tail)
      -- Anything else (including a{0,0}) is a construction error.
      else .error "ERROR"
    else do
      let tail ← expandWith tat rest
      .ok (tok :: tail)

/-- The `while (tokens.length != 1 && repeatsLeft > 0)` loop of
`TokenArrayToTree`, parameterised by the expander. -/
def tatLoopWith (expand : List Tok → Except String (List Tok)) :
    Nat → List Tok → Except String (List Tok)
  | 0, tokens => .ok tokens
  | repeatsLeft + 1, tokens =>
    if tokens.length != 1 then do
      let expanded ← expand tokens
      tatLoopWith expand repeatsLeft (mergeExpressions expanded)
    else .ok tokens

/-- `Regex.prototype.TokenArrayToTree`: expand and merge until a single
root remains or the ten-pass budget runs out.  The `fuel` models host
recursion depth for the mutual recursion with `ExpandExpressions` (the
JS nests these calls without any bound of its own); it is structural so
that the definition computes by kernel reduction. -/
def tokenArrayToTree : Nat → List Tok → Except String (List Tok)
  | 0, _ => .error "FUEL"
  | fuel + 1, tokens => tatLoopWith (expandWith (tokenArrayToTree fuel)) 10 tokens

/-! ### NFA -/

/-- An NFA transition row: symbol (with `none` for the JS `null` epsilon)
to list of destination states, in insertion order. -/
abbrev NRow := List (Option Char × List Nat)

/-- The NFA transition table, keyed by state in insertion order (the JS
keys are integers, but the table is only ever accessed by key). -/
abbrev NTable := List (Nat × NRow)

/-- The `NFA` object: transition table, highest state seen (`end`), and
the list of symbols in first-seen order (`values`). -/
structure NFA where
  table : NTable
  endS : Nat
  values : List (Option Char)
deriving DecidableEq, Repr

def NFA.mk0 : NFA := ⟨[], 0, []⟩

/-- `transitionTable[s]`, or `none` when absent. -/
def ntLookup (t : NTable) (s : Nat) : Option NRow :=
  (t.find? (fun p => p.1 == s)).map Prod.snd

/-- `transitionTable[s][v]`, or `none` when absent. -/
def nrowLookup (row : NRow) (v : Option Char) : Option (List Nat) :=
  (row.find? (fun p => p.1 == v)).map Prod.snd

/-- In-place update of key `s` (keeping its position), used for JS
property assignment on an existing key. -/
def ntSet (t : NTable) (s : Nat) (row : NRow) : NTable :=
  if t.any (fun p => p.1 == s) then
    t.map (fun p => if p.1 == s then (s, row) else p)
  else t ++ [(s, row)]

def nrowSet (row : NRow) (v : Option Char) (states : List Nat) : NRow :=
  if row.any (fun p => p.1 == v) then
    row.map (fun p => if p.1 == v then (v, states) else p)
  else row ++ [(v, states)]

/-- `NFA.prototype.AddTransition`. -/
def NFA.addTransition (n : NFA) (state0 : Nat) (v : Option Char) (state1 : Nat) : NFA :=
  let row := (ntLookup n.table state0).getD []
  let states := (nrowLookup row v).getD []
  { table := ntSet n.table state0 (nrowSet row v (states ++ [state1]))
    endS := if state1 > n.endS then state1 else n.endS
    values := if n.values.contains v then n.values else n.values ++ [v] }

/-- `NFA.prototype.Singular`. -/
def NFA.singular (v : Option Char) : NFA := NFA.mk0.addTransition 0 v 1

/-- `this.transitionTable[s] = {}`. -/
def NFA.setEmptyRow (n : NFA) (s : Nat) : NFA :=
  { n with table := ntSet n.table s [] }

/-- `NFA.prototype.AddTransitions(src, start)`: copy the transitions of
`src` for states `0 .. src.end - 1` shifted by `start` (resetting each
destination row first, as the JS does). -/
def NFA.addTransitionsFrom (dst : NFA) (src : NFA) (start : Nat) : NFA :=
  (List.range src.endS).foldl
    (fun acc i =>
      let acc := acc.setEmptyRow (start + i)
      match ntLookup src.table i with
      | none => acc
      | some row =>
        src.values.foldl
          (fun acc v =>
            match nrowLookup row v with
            | none => acc
            | some states =>
              states.foldl (fun acc k => acc.addTransition (start + i) v (start + k)) acc)
          acc)
    dst

/-- `NFA.prototype.And`. -/
def NFA.andN (nfaA nfaB : NFA) : NFA :=
  ((NFA.mk0.addTransitionsFrom nfaA 0).addTransition nfaA.endS none (nfaA.endS + 1))
    |>.addTransitionsFrom nfaB (nfaA.endS + 1)

/-- `NFA.prototype.Or`. -/
def NFA.orN (nfaA nfaB : NFA) : NFA :=
  let n := (NFA.mk0.addTransition 0 none 1).addTransitionsFrom nfaA 1
  let n := (n.addTransition 0 none (nfaA.endS + 2)).addTransitionsFrom nfaB (nfaA.endS + 2)
  let n := n.addTransition (nfaA.endS + 1) none (nfaA.endS + nfaB.endS + 3)
  n.addTransition (nfaA.endS + nfaB.endS + 2) none (nfaA.endS + nfaB.endS + 3)

/-- `NFA.prototype.Asterisk`. -/
def NFA.asterisk (nfa : NFA) : NFA :=
  let n := (NFA.mk0.addTransition 0 none 1).addTransitionsFrom nfa 1
  let n := n.addTransition (nfa.endS + 1) none 1
  let n := n.addTransition (nfa.endS + 1) none (nfa.endS + 2)
  n.addTransition 0 none (nfa.endS + 2)

/-- JS `token.value.value`: defined for an `expr` token wrapping a leaf
token; for the shapes the compiler never produces (`value.value` is the
JS `undefined`) we return `none`. -/
def Tok.innerValue : Tok → Option Char
  | .texprT (.tchar c _) _ => c
  | .texprT (.tmeta c _) _ => some c
  | _ => none

/-- `Regex.prototype.BuildNFA` (first variant).  The fuel models host
recursion over the nested token tree. -/
def buildNFA : Nat → Tok → Except String NFA
  | 0, _ => .error "FUEL"
  | fuel + 1, tok =>
    match tok with
    | .texprA ts r => do
      let ab ←
        match ts with
        | [x, y] => do
          let a ← buildNFA fuel x
          let b ← buildNFA fuel y
          pure (NFA.andN a b)
        | [x, _, z] => do
          let a ← buildNFA fuel x
          let b ← buildNFA fuel z
          pure (NFA.orN a b)
        | _ => .error "ERROR"
      if r.2 == -1 then .ok (NFA.asterisk ab) else .ok ab
    | t => .ok (NFA.singular t.innerValue)

/-! ### Epsilon closure and move -/

/-- The loop of `NFA.prototype.eClosure` over the input states,
parameterised by the recursive call (`this.eClosure(r0)` in the JS). -/
def eClosureLoop (t : NTable) (recur : List Nat → Option (List Nat)) :
    List Nat → List Nat → Option (List Nat)
  | [], reachable => some reachable
  | state :: rest, reachable =>
    -- Add the current state to reachable states.
    let reachable := reachable ++ [state]
    match ntLookup t state with
    | none => eClosureLoop t recur rest reachable
    | some row =>
      match nrowLookup row none with
      | none => eClosureLoop t recur rest reachable
      | some r0 =>
        match recur r0 with
        | none => none
        | some r1 =>
          let reachable := r0.foldl
            (fun acc s => if acc.contains s then acc else acc ++ [s]) reachable
          let reachable := r1.foldl
            (fun acc s => if acc.contains s then acc else acc ++ [s]) reachable
          eClosureLoop t recur rest reachable

/-- `nfa.eClosure(startStates)`, with a fuel bounding the depth of the
recursive calls.  A `none` result means the recursion depth exceeded the
fuel — for an epsilon-cyclic table this happens for every fuel,
reflecting that the JS recursion does not terminate. -/
def eClosureF (t : NTable) : Nat → List Nat → Option (List Nat)
  | 0, startStates => eClosureLoop t (fun _ => none) startStates []
  | fuel + 1, startStates => eClosureLoop t (eClosureF t fuel) startStates []

/-- `NFA.prototype.Move`. -/
def nfaMove (t : NTable) (startStates : List Nat) (symbol : Option Char) : List Nat :=
  startStates.foldl
    (fun reachable state =>
      match ntLookup t state with
      | none => reachable
      | some row =>
        match nrowLookup row symbol with
        | none => reachable
        | some resultantStates => reachable ++ resultantStates)
    []

/-! ### DFA tables and subset construction -/

/-- One DFA state's table entry, i.e. the JS object
`transitionTable[state]`.  Its keys, in insertion order, are: the symbols
set during subset construction (`syms`), then — once the flag loop has run
— `start` and `end` (`hasFlags`), then symbols appended by
`AddDeadState` (`late`).  Before the flags are written, reading
`entry['end']` yields the falsy `undefined`, which the invariant
`hasFlags = false → endF = false` captures. -/
structure DEntry where
  syms : List (Char × Nat)
  hasFlags : Bool
  startF : Bool
  endF : Bool
  late : List (Char × Nat)
deriving DecidableEq, Repr

def DEntry.mk0 : DEntry := ⟨[], false, false, false, []⟩

/-- `entry[c]` for a symbol key `c` (each key occurs at most once, so
searching the concatenated key list finds it wherever it sits). -/
def DEntry.get (e : DEntry) (c : Char) : Option Nat :=
  ((e.syms ++ e.late).find? (fun p => p.1 == c)).map Prod.snd

/-- `entry[c] = v`: update in place if the key exists, otherwise append
(after the flag keys when those are already present). -/
def DEntry.set (e : DEntry) (c : Char) (v : Nat) : DEntry :=
  if e.syms.any (fun p => p.1 == c) then
    { e with syms := e.syms.map (fun p => if p.1 == c then (c, v) else p) }
  else if e.late.any (fun p => p.1 == c) then
    { e with late := e.late.map (fun p => if p.1 == c then (c, v) else p) }
  else if e.hasFlags then { e with late := e.late ++ [(c, v)] }
  else { e with syms := e.syms ++ [(c, v)] }

/-- `Object.keys(entry).length`. -/
def DEntry.keyCount (e : DEntry) : Nat :=
  e.syms.length + (if e.hasFlags then 2 else 0) + e.late.length

/-- The symbol keys of the entry (`Object.keys` minus `start`/`end`),
in key order. -/
def DEntry.symKeys (e : DEntry) : List Char :=
  (e.syms ++ e.late).map Prod.fst

/-- The transition targets of the entry, in key order. -/
def DEntry.branchTargets (e : DEntry) : List Nat :=
  (e.syms ++ e.late).map Prod.snd

/-- `entry['end']` (falsy `undefined` before the flag loop has run). -/
def DEntry.endFlag (e : DEntry) : Bool := e.endF

/-- The DFA transition table: entries indexed densely by state (the JS
object has integer keys `0 .. mappings-1`, kept dense by construction). -/
abbrev DTable := List DEntry

/-- The `SubsetConstruction` state during `Build`: `StateMapping` and the
growing DFA table.  The JS counter `this.mappings` always equals the
length of both lists during this phase, so it is not modelled as a
separate field. -/
structure SC where
  stateMapping : List (List Nat)
  dfa : DTable
deriving Repr

/-- The subset comparison used by `GetMapping`/`HasMapping`: equal length
and every element of the probe contained in the stored subset. -/
def matchesMem (memStates nfaStates : List Nat) : Bool :=
  memStates.length == nfaStates.length && nfaStates.all (memStates.contains ·)

/-- The search loop (`for i of 0 .. mappings-1`) shared by
`GetMapping`/`HasMapping`: index of the first stored subset matching the
probe. -/
def findMatch (nfaStates : List Nat) : List (List Nat) → Option Nat
  | [] => none
  | M :: rest =>
    if matchesMem M nfaStates then some 0
    else (findMatch nfaStates rest).map (· + 1)

/-- `SubsetConstruction.prototype.GetMapping`: return the first matching
mapping, or create a new one. -/
def SC.getMapping (sc : SC) (nfaStates : List Nat) : Nat × SC :=
  match findMatch nfaStates sc.stateMapping with
  | some i => (i, sc)
  | none =>
    (sc.stateMapping.length,
     ⟨sc.stateMapping ++ [nfaStates], sc.dfa ++ [DEntry.mk0]⟩)

/-- `SubsetConstruction.prototype.HasMapping`. -/
def SC.hasMapping (sc : SC) (nfaStates : List Nat) : Bool :=
  (findMatch nfaStates sc.stateMapping).isSome

/-- Replace index `i` of a list, when present (JS property assignment on
an integer key within the dense range). -/
def listSet {α : Type} (l : List α) (i : Nat) (a : α) : List α :=
  l.set i a

/-- `this.dfa.transitionTable[state][symbol] = m`. -/
def SC.setDfaSym (sc : SC) (state : Nat) (c : Char) (m : Nat) : SC :=
  { sc with dfa := listSet sc.dfa state (((sc.dfa.getD state DEntry.mk0)).set c m) }

/-- The `for` loop over the alphabet inside
`SubsetConstruction.prototype.Recursive`, parameterised by the recursive
call (`recur`) and the epsilon-closure (`eclo`). -/
def scSymLoop (nfa : NFA) (recur : SC → Nat → Option SC)
    (eclo : List Nat → Option (List Nat)) :
    SC → Nat → List Char → Option SC
  | sc, _, [] => some sc
  | sc, state, symbol :: restSyms => do
    let move := nfaMove nfa.table (sc.stateMapping.getD state []) (some symbol)
    let states ← eclo move
    if states.length > 0 && !(sc.hasMapping states) then
      let (mapping, sc1) := sc.getMapping states
      let sc2 := sc1.setDfaSym state symbol mapping
      let sc3 ← recur sc2 mapping
      scSymLoop nfa recur eclo sc3 state restSyms
    else
      let (mapping, sc1) := sc.getMapping states
      scSymLoop nfa recur eclo (sc1.setDfaSym state symbol mapping) state restSyms

/-- `SubsetConstruction.prototype.Recursive`: the fuel bounds the depth
of the depth-first recursion into newly created mappings (each epsilon
closure receives the same fuel afresh). -/
def scRecursive (nfa : NFA) (symbols : List Char) (eFuel : Nat) :
    Nat → SC → Nat → Option SC
  | 0, _, _ => none
  | fuel + 1, sc, state =>
    scSymLoop nfa (scRecursive nfa symbols eFuel fuel)
      (eClosureF nfa.table eFuel) sc state symbols

/-- `SubsetConstruction.prototype.Build`. -/
def scBuild (nfa : NFA) (fuel : Nat) : Option SC := do
  let startStates ← eClosureF nfa.table fuel [0]
  let symbols := nfa.values.filterMap id
  let (m0, sc1) := SC.mk ([] : List (List Nat)) ([] : DTable) |>.getMapping startStates
  scRecursive nfa symbols fuel fuel sc1 m0

/-- The start/end flag loop of the `SubsetConstruction` constructor. -/
def scFlagLoop (nfa : NFA) (sc : SC) : DTable :=
  (List.range sc.stateMapping.length).foldl
    (fun t i =>
      let subset := sc.stateMapping.getD i []
      listSet t i
        { t.getD i DEntry.mk0 with
          hasFlags := true
          startF := subset.contains 0
          endF := subset.contains nfa.endS })
    sc.dfa

/-- The sink entry (`{start: false, end: false}`) appended by
`AddDeadState`. -/
def sinkEntry : DEntry := ⟨[], true, false, false, []⟩

/-- The per-symbol body of `SubsetConstruction.prototype.AddDeadState`:
give state `i` a transition to the sink for a symbol it lacks, creating
the sink on first need. -/
def adsInnerStep (m i : Nat) (t : DTable) (v : Option Char) : DTable :=
  match v with
  | none => t
  | some c =>
    if (t.getD i DEntry.mk0).get c == none then
      let t := if t.length == m then t ++ [sinkEntry] else t
      listSet t i ((t.getD i DEntry.mk0).set c m)
    else t

/-- `SubsetConstruction.prototype.AddDeadState`: give every existing
state a transition to a fresh sink for each alphabet symbol it lacks.
The JS increments `this.mappings` afterwards iff the sink was created,
which the table length records implicitly. -/
def addDeadState (t : DTable) (values : List (Option Char)) : DTable :=
  let m := t.length
  (List.range m).foldl (fun t i => values.foldl (adsInnerStep m i) t) t

/-- The branch loop of `IsDeadStateRecursive`, parameterised by the
recursive call; early exit on a live branch, threading the shared
`checked` array. -/
def isDeadBranches (recur : Nat → List Nat → Option (Bool × List Nat)) :
    List Nat → List Nat → Option (Bool × List Nat)
  | checked, [] => some (true, checked)
  | checked, b :: rest =>
    match recur b checked with
    | none => none
    | some (false, checked2) => some (false, checked2)
    | some (true, checked2) => isDeadBranches recur checked2 rest

/-- `DFA.prototype.IsDeadStateRecursive` /
`SubsetConstruction.prototype.IsDeadStateRecursive` (identical code): the
shared, mutated `checked` array is threaded through and returned.  A
missing table entry (a JS `TypeError` on `Object.keys`) and fuel
exhaustion both yield `none`. -/
def isDeadRecF (t : DTable) : Nat → Nat → List Nat → Option (Bool × List Nat)
  | 0, _, _ => none
  | fuel + 1, state, checked =>
    match t.get? state with
    | none => none
    | some e =>
      -- False if end.
      if e.endFlag then some (false, checked)
      -- True if dead state or cyclic (so we don't re-check it).
      else if e.keyCount == 2 || checked.contains state then some (true, checked)
      else isDeadBranches (isDeadRecF t fuel) (checked ++ [state]) e.branchTargets

/-- `IsDeadState(state)` = `IsDeadStateRecursive(state, [])`. -/
def isDeadStateF (t : DTable) (fuel : Nat) (state : Nat) : Option Bool :=
  (isDeadRecF t fuel state []).map Prod.fst

/-- The inner per-entry update of `RemoveState`: for each key of the
stale symbol list that the entry has, redirect a pointer to the removed
state to `newState` and then renumber pointers above the removed state
down by one (the two `if`s are not exclusive in the JS, so both apply in
sequence). -/
def removeUpd (state newState : Nat) (staleSyms : List Char) (e : DEntry) : DEntry :=
  staleSyms.foldl
    (fun e c =>
      match e.get c with
      | none => e
      | some v =>
        let v := if v == state then newState else v
        let v := if v > state then v - 1 else v
        e.set c v)
    e

/-- The `for i` loop of `RemoveState`: note that the symbol list is
re-read from `transitionTable[state]` on every iteration, and once the
shift `table[i-1] = table[i]` has passed the removed index that slot
holds the next state's entry — the JS behaviour is reproduced exactly. -/
def removeStateLoop (state newState : Nat) : Nat → Nat → DTable → DTable
  | _, 0, t => t
  | i, remaining + 1, t =>
    let staleSyms := (t.getD state DEntry.mk0).symKeys
    let t := listSet t i (removeUpd state newState staleSyms (t.getD i DEntry.mk0))
    let t := if i > state then listSet t (i - 1) (t.getD i DEntry.mk0) else t
    removeStateLoop state newState (i + 1) remaining t

/-- `SubsetConstruction.prototype.RemoveState` (the caller passes
`newState = mappings - 1`); ends by deleting the last entry. -/
def removeState (t : DTable) (state newState : Nat) : DTable :=
  let m := t.length
  (removeStateLoop state newState 0 m t).take (m - 1)

theorem listSet_length {α : Type} (l : List α) (i : Nat) (a : α) :
    (listSet l i a).length = l.length := by
  simp [listSet]

theorem removeStateLoop_length (state newState : Nat) :
    ∀ i remaining t, (removeStateLoop state newState i remaining t).length = t.length := by
  intro i remaining
  induction remaining generalizing i with
  | zero => intro t; rfl
  | succ n ih =>
    intro t
    rw [removeStateLoop, ih]
    by_cases h : i > state <;> simp [h, listSet_length]

theorem removeState_length (t : DTable) (state newState : Nat) :
    (removeState t state newState).length = t.length - 1 := by
  simp [removeState, removeStateLoop_length]

/-- The `SimplifyDeadStates` loop
(`for (i = 0; i < this.mappings - 1; i++)`), with the current table (and
hence `mappings`) shrinking on each removal.  The structural bound `rem`
(initially the table length) dominates the loop measure
`t.length - i`, which shrinks by at least one per iteration, so the
`none`-on-zero case is never reached from the entry point. -/
def simplifyLoop (fuel : Nat) : Nat → Nat → DTable → Option DTable
  | 0, i, t => if i < t.length - 1 then none else some t
  | rem + 1, i, t =>
    if i < t.length - 1 then
      match isDeadStateF t fuel i with
      | none => none
      | some true => simplifyLoop fuel rem (i + 1) (removeState t i (t.length - 1))
      | some false => simplifyLoop fuel rem (i + 1) t
    else some t

/-- `SubsetConstruction.prototype.SimplifyDeadStates`. -/
def simplifyDeadStates (fuel : Nat) (t : DTable) : Option DTable :=
  simplifyLoop fuel t.length 0 t

/-- The `SubsetConstruction` constructor: build, flag, add the dead
state, simplify. -/
def subsetConstruction (nfa : NFA) (fuel : Nat) : Option DTable := do
  let sc ← scBuild nfa fuel
  let flagged := scFlagLoop nfa sc
  let total := addDeadState flagged nfa.values
  simplifyDeadStates fuel total

/-- The full `Regex` compilation pipeline
(`TokenizeRegex` → `CharsToExprs`/`TokenArrayToTree` → `BuildNFA` →
`SubsetConstruction`), with `regexTree[0]` on an empty tree being the JS
`undefined` (a `TypeError` downstream). -/
def compileNFA (fuel : Nat) (pattern : List Char) : Except String NFA := do
  let tokens ← tokenizeRegex pattern
  let tree ← tokenArrayToTree fuel (charsToExprs tokens)
  match tree.head? with
  | none => .error "TYPE ERROR"
  | some root => buildNFA fuel root

def compileDFA (fuel : Nat) (pattern : List Char) : Except String DTable := do
  let nfa ← compileNFA fuel pattern
  match subsetConstruction nfa fuel with
  | some t => .ok t
  | none => .error "FUEL"

/-! ### DFA matching -/

/-- `DFA.prototype.IsValidWord`: walk the table from state 0; a missing
transition rejects immediately; after the input is consumed the final
read `transitionTable[state]['end']` crashes with a JS `TypeError` when
the state has no entry, modelled by `none`. -/
def isValidWordGo (t : DTable) : Nat → List Char → Option Bool
  | state, [] => (t.get? state).map (·.endFlag)
  | state, c :: rest =>
    match t.get? state with
    | none => some false
    | some e =>
      match e.get c with
      | none => some false
      | some state2 => isValidWordGo t state2 rest

def isValidWord (t : DTable) (word : List Char) : Option Bool :=
  isValidWordGo t 0 word

/-- `DFA.prototype.ValidWordLength(word, start)`: the inner loop from
index `i`; `lastValid` uses `none` for the JS `-1` sentinel.  The result
is `none` when an `IsDeadState` call runs out of fuel or a table entry
that the JS would read is missing.  The structural bound `rem` equals
`word.length - i` at the entry point, so the loop condition
`i < word.length` is `rem > 0` and `word[i]` is in range. -/
def vwlGo (t : DTable) (fuel : Nat) (word : List Char) :
    Nat → Nat → Nat → Option Nat → Option (Option Nat)
  | 0, _, _, lastValid => some lastValid
  | rem + 1, i, state, lastValid =>
    match word.get? i with
    | none => some lastValid
    | some c =>
      match t.get? state with
      | none => some lastValid
      | some e =>
        match e.get c with
        | none => some lastValid
        | some target =>
          match isDeadStateF t fuel target with
          | none => none
          | some true => some lastValid
          | some false =>
            match t.get? target with
            | none => none
            | some e2 =>
              vwlGo t fuel word rem (i + 1) target
                (if e2.endFlag then some i else lastValid)

def validWordLengthF (t : DTable) (fuel : Nat) (word : List Char) (start : Nat) :
    Option (Option Nat) :=
  vwlGo t fuel word (word.length - start) start 0 none

/-- The matched span recorded by `FindAll` at offsets `i .. x`. -/
def sliceWord (word : List Char) (i x : Nat) : List Char :=
  (word.drop i).take (x + 1 - i)

/-- `DFA.prototype.FindAll`: scan, record, deduplicate; after a match
ending at `x` the JS sets `i = x` and the loop increment resumes at
`x + 1`.  `rem` is a structural bound on the number of loop iterations;
since `i` strictly increases, `word.length` iterations always suffice
and the `none`-on-zero case is never reached from the entry point. -/
def findAllGo (t : DTable) (fuel : Nat) (word : List Char) :
    Nat → Nat → List (List Char) → Option (List (List Char))
  | 0, i, valid => if i < word.length then none else some valid
  | rem + 1, i, valid =>
    if i < word.length then
      match validWordLengthF t fuel word i with
      | none => none
      | some none => findAllGo t fuel word rem (i + 1) valid
      | some (some x) =>
        let w := sliceWord word i x
        let valid2 := if valid.contains w then valid else valid ++ [w]
        findAllGo t fuel word rem (x + 1) valid2
    else some valid

def findAllF (t : DTable) (fuel : Nat) (word : List Char) :
    Option (List (List Char)) :=
  findAllGo t fuel word word.length 0 []

/-! ### Concrete compiled automata used by the claim theorems -/

/-- The DFA compiled from `(a|b)+`.  Because `TokenArrayToTree` returns
as soon as a single root remains, the root's `(1,-1)` repetition is never
expanded, so `BuildNFA` star-wraps the alternation and the automaton is
that of `(a|b)*`: every state is accepting. -/
def plusTable : DTable :=
  [⟨[('a', 1), ('b', 2)], true, true, true, []⟩,
   ⟨[('a', 1), ('b', 2)], true, false, true, []⟩,
   ⟨[('a', 1), ('b', 2)], true, false, true, []⟩]

/-- The DFA compiled from `a?`: the single root token keeps its `(0,1)`
repetition, which `BuildNFA` ignores, so this is just the automaton of
the literal `a` (state 2 is the appended dead-state sink). -/
def optTable : DTable :=
  [⟨[('a', 1)], true, true, false, []⟩,
   ⟨[('a', 2)], true, false, true, []⟩,
   ⟨[], true, false, false, []⟩]

/-- The DFA compiled from the single literal `a` (identical to
`optTable`): state 2 is the appended sink and has no outgoing
transitions. -/
def litATable : DTable :=
  [⟨[('a', 1)], true, true, false, []⟩,
   ⟨[('a', 2)], true, false, true, []⟩,
   ⟨[], true, false, false, []⟩]

/-- The NFA compiled from `(a?)*`: the inner `a?` compiles to the
`(empty | a)` alternation whose `empty` branch is an epsilon transition,
so the star wrap-around creates the epsilon cycle
`1 → 2 → 3 → 6 → 1`. -/
def aqsNFA : NFA :=
  ⟨[(0, [(none, [1, 7])]), (1, [(none, [2, 4])]), (2, [(none, [3])]),
    (3, [(none, [6])]), (4, [(some 'a', [5])]), (5, [(none, [6])]),
    (6, [(none, [1, 7])])], 7, [none, some 'a']⟩

/-- The claim's totality predicate: every state of the DFA table has an
outgoing transition for every non-epsilon symbol of the list. -/
def totalOverB (t : DTable) (values : List (Option Char)) : Bool :=
  (List.range t.length).all fun i =>
    values.all fun v =>
      match v with
      | none => true
      | some c => ((t.getD i DEntry.mk0).get c).isSome

/-! ### Claim theorems -/

/-- Claim C1: the spec scenario says the compiled `(a|b)+` rejects the
empty string; the code instead accepts it (the root's `(1,-1)` repetition
is never expanded because the tree builder's loop exits on any
single-token array, so `+` degenerates to `*`).  This theorem evaluates
the compiler and matcher on all six scenario strings: `a`, `ab`, `bba`
are accepted and `c`, `abc` rejected as claimed, but `""` is accepted,
contradicting the claim. -/
theorem c1_plus_scenario_eval :
    compileDFA 200 ['(', 'a', '|', 'b', ')', '+'] = .ok plusTable ∧
    isValidWord plusTable ['a'] = some true ∧
    isValidWord plusTable ['a', 'b'] = some true ∧
    isValidWord plusTable ['b', 'b', 'a'] = some true ∧
    isValidWord plusTable ['c'] = some false ∧
    isValidWord plusTable ['a', 'b', 'c'] = some false ∧
    isValidWord plusTable [] = some true :=
  ⟨rfl, rfl, rfl, rfl, rfl, rfl, rfl⟩

/-- Claim C2: the spec scenario says the compiled `a?` accepts the empty
string and `a` and rejects `aa`; the code instead rejects the empty
string (a single-token array skips the expand/merge loop entirely, so the
root's `(0,1)` repetition survives to `BuildNFA`, which ignores it and
compiles a bare literal `a`).  The matcher results on the three scenario
strings: `a` accepted, `aa` rejected as claimed, but `""` rejected,
contradicting the claim. -/
theorem c2_opt_scenario_eval :
    compileDFA 200 ['a', '?'] = .ok optTable ∧
    isValidWord optTable [] = some false ∧
    isValidWord optTable ['a'] = some true ∧
    isValidWord optTable ['a', 'a'] = some false :=
  ⟨rfl, rfl, rfl, rfl⟩

/-- Claim C3 counterexample: for the pattern `a` (alphabet `['a']`,
witnessed by the compiled NFA's symbol list), the finalized DFA's
appended sink state (state 2, the last state) has no outgoing transition
for `'a'`, so it is not the case that every DFA state — including the
sink — has a transition for every alphabet symbol. -/
theorem c3_sink_not_total_counterexample :
    compileNFA 200 ['a'] = .ok ⟨[(0, [(some 'a', [1])])], 1, [some 'a']⟩ ∧
    compileDFA 200 ['a'] = .ok litATable ∧
    litATable.length = 3 ∧
    ((litATable.getD 2 DEntry.mk0).get 'a') = none ∧
    totalOverB litATable [some 'a'] = false :=
  ⟨rfl, rfl, rfl, rfl, rfl⟩

/-- Claim C9 counterexample: tokenizing the two-character sequence
`\\` (backslash then backslash) produces no token at all — the second
backslash is consumed as the start of a new escape because the
`value == '\\'` branch precedes the `notCommand` branch — rather than the
claimed literal backslash character token. -/
theorem c9_escaped_backslash_counterexample :
    tokenizeRegex ['\\', '\\'] = .ok [] ∧
    tokenizeRegex ['\\', '\\'] ≠ .ok [Tok.tchar (some '\\') (1, 1)] := by
  refine ⟨rfl, fun h => ?_⟩
  rw [show tokenizeRegex ['\\', '\\'] = .ok ([] : List Tok) from rfl] at h
  exact List.noConfusion (Except.ok.inj h)

/-- Claim C9, amended: for every character `c` other than the backslash
— including the special symbols `(`, `)`, `|`, `*`, `+`, `?`, `{`, `}`,
`[`, `]` — processing the two-character escape sequence `\c` from any
tokenizer state outside a repetition count appends exactly one literal
character token with value `c`, bypassing all special-symbol handling. -/
theorem c9_escape_literal_amended (st : LexSt) (c : Char)
    (hbr : st.brActive = false) (hlr : st.lrActive = false) (hc : c ≠ '\\') :
    (tokStep st '\\').bind (fun st1 => tokStep st1 c) =
      .ok { st with tokens := st.tokens ++ [.tchar (some c) (1, 1)],
                    notCommand := false } := by
  have hbeq : (c == '\\') = false := by simp [hc]
  simp [tokStep, hbr, hlr, hbeq, Except.bind]

/-- Witness for the amended C9 theorem at the concrete state
`LexSt.init` and the escaped character `a`. -/
theorem c9_escape_literal_amended_witness :
    (tokStep LexSt.init '\\').bind (fun st1 => tokStep st1 'a') =
      .ok { LexSt.init with tokens := [Tok.tchar (some 'a') (1, 1)],
                            notCommand := false } :=
  c9_escape_literal_amended LexSt.init 'a' rfl rfl (by decide)

/-- If the first input state has epsilon transitions and the recursive
epsilon-closure call on them fails, the whole loop call fails: the exact
propagation used to show the JS recursion never returns on a cycle. -/
theorem eClosureLoop_none_step (t : NTable) (recur : List Nat → Option (List Nat))
    (s : Nat) (rest reach : List Nat) (row : NRow) (r0 : List Nat)
    (h1 : ntLookup t s = some row) (h2 : nrowLookup row none = some r0)
    (h3 : recur r0 = none) :
    eClosureLoop t recur (s :: rest) reach = none := by
  rw [eClosureLoop]
  simp only [h1, h2, h3]

/-- Claim C4: the epsilon-closure recursion does NOT terminate on the NFA
compiled from `(a?)*`.  The star fragment loops back through the
`(empty|a)` alternation, whose `empty` branch is itself an epsilon
transition, giving the epsilon cycle `1 → 2 → 3 → 6 → 1`; the membership
checks in `eClosure` only deduplicate the result list and do not guard
the recursive `this.eClosure(r0)` call, so `eClosure([0])` recurses
forever (for every fuel bound the fuelled model returns `none`). -/
theorem c4_eclosure_diverges_on_star_of_optional :
    compileNFA 200 ['(', 'a', '?', ')', '*'] = .ok aqsNFA ∧
    ∀ fuel, eClosureF aqsNFA.table fuel [0] = none := by
  refine ⟨rfl, ?_⟩
  have cyc : ∀ f, eClosureF aqsNFA.table f [1, 7] = none := by
    have bundle : ∀ f,
        eClosureF aqsNFA.table f [1, 7] = none ∧
        eClosureF aqsNFA.table (f + 1) [1, 7] = none ∧
        eClosureF aqsNFA.table (f + 2) [1, 7] = none ∧
        eClosureF aqsNFA.table (f + 3) [1, 7] = none := by
      intro f
      induction f with
      | zero => exact ⟨rfl, rfl, rfl, rfl⟩
      | succ n ih =>
        obtain ⟨h0, h1, h2, h3⟩ := ih
        refine ⟨h1, h2, h3, ?_⟩
        have s6 : eClosureF aqsNFA.table (n + 1) [6] = none := by
          show eClosureLoop aqsNFA.table (eClosureF aqsNFA.table n) [6] [] = none
          exact eClosureLoop_none_step _ _ 6 [] [] _ [1, 7] rfl rfl h0
        have s3 : eClosureF aqsNFA.table (n + 2) [3] = none := by
          show eClosureLoop aqsNFA.table (eClosureF aqsNFA.table (n + 1)) [3] [] = none
          exact eClosureLoop_none_step _ _ 3 [] [] _ [6] rfl rfl s6
        have s24 : eClosureF aqsNFA.table (n + 3) [2, 4] = none := by
          show eClosureLoop aqsNFA.table (eClosureF aqsNFA.table (n + 2)) [2, 4] [] = none
          exact eClosureLoop_none_step _ _ 2 [4] [] _ [3] rfl rfl s3
        show eClosureLoop aqsNFA.table (eClosureF aqsNFA.table (n + 3)) [1, 7] [] = none
        exact eClosureLoop_none_step _ _ 1 [7] [] _ [2, 4] rfl rfl s24
    exact fun f => (bundle f).1
  intro fuel
  cases fuel with
  | zero => rfl
  | succ f =>
    show eClosureLoop aqsNFA.table (eClosureF aqsNFA.table f) [0] [] = none
    exact eClosureLoop_none_step _ _ 0 [] [] _ [1, 7] rfl rfl (cyc f)

/-- The tokenizer's fold, as its own function for compositional reasoning. -/
def runTok (st : LexSt) (l : List Char) : Except String LexSt :=
  l.foldlM tokStep st

theorem tokenizeRegex_eq_runTok (l : List Char) :
    tokenizeRegex l = (runTok LexSt.init l).bind (fun st => .ok st.tokens) := rfl

theorem runTok_cons_ok {st st2 : LexSt} {c : Char} (l : List Char)
    (h : tokStep st c = .ok st2) : runTok st (c :: l) = runTok st2 l := by
  rw [runTok, List.foldlM_cons, h]; rfl

theorem runTok_append_ok {st st2 : LexSt} {l1 : List Char} (l2 : List Char)
    (h : runTok st l1 = .ok st2) : runTok st (l1 ++ l2) = runTok st2 l2 := by
  rw [runTok, List.foldlM_append, show l1.foldlM tokStep st = .ok st2 from h]; rfl

theorem runTok_single_err {st : LexSt} {c : Char} {e : String}
    (h : tokStep st c = .error e) : runTok st [c] = .error e := by
  rw [runTok, List.foldlM_cons, h]; rfl

/-- Feeding a run of digits to the tokenizer while the repetition-count
accumulator is active with `val = 0` appends the digits to `valueA`. -/
theorem tok_digit_run_A (ds : List Char) :
    ∀ st : LexSt, (∀ c ∈ ds, c.isDigit) → st.brActive = false →
      st.lrActive = true → st.lrVal = 0 →
      runTok st ds = .ok { st with lrA := st.lrA ++ ds } := by
  induction ds with
  | nil => intro st _ _ _ _; simp only [List.append_nil]; rfl
  | cons c ds ih =>
    intro st hd hbr hlr hv
    have hstep : tokStep st c = .ok { st with lrA := st.lrA ++ [c] } := by
      simp [tokStep, hbr, hlr, hv, hd c (by simp)]
    rw [runTok_cons_ok ds hstep,
      ih { st with lrA := st.lrA ++ [c] } (fun x hx => hd x (by simp [hx])) hbr hlr hv]
    simp

/-- Feeding a run of digits to the tokenizer while the repetition-count
accumulator is active with `val ≠ 0` appends the digits to `valueB`. -/
theorem tok_digit_run_B (ds : List Char) :
    ∀ st : LexSt, (∀ c ∈ ds, c.isDigit) → st.brActive = false →
      st.lrActive = true → st.lrVal = 1 →
      runTok st ds = .ok { st with lrB := st.lrB ++ ds } := by
  induction ds with
  | nil => intro st _ _ _ _; simp only [List.append_nil]; rfl
  | cons c ds ih =>
    intro st hd hbr hlr hv
    have hstep : tokStep st c = .ok { st with lrB := st.lrB ++ [c] } := by
      simp [tokStep, hbr, hlr, hv, hd c (by simp)]
    rw [runTok_cons_ok ds hstep,
      ih { st with lrB := st.lrB ++ [c] } (fun x hx => hd x (by simp [hx])) hbr hlr hv]
    simp

/-- Tokenizer errors propagate through the whole compilation pipeline. -/
theorem compileDFA_of_tokenize_error (p : List Char) (e : String)
    (h : tokenizeRegex p = .error e) (fuel : Nat) :
    compileDFA fuel p = .error e := by
  simp only [compileDFA, compileNFA, h]
  rfl

/-- Claim C8: a repetition count `{a,b}` with `b ≠ -1` and `b < a` (such
as `a{3,1}`) makes the tokenizer throw the range error `PARSE ERROR`
while resolving the closing brace, and therefore the whole compilation
fails with that error before any NFA or DFA is constructed; likewise a
count with a third bound field (`a{1,2,3}`) is rejected with a parse
error at its second comma, at tokenization time. -/
theorem c8_range_error_before_construction (da db : List Char)
    (hda : ∀ c ∈ da, c.isDigit) (hane : da ≠ [])
    (hdb : ∀ c ∈ db, c.isDigit) (hbne : db ≠ [])
    (hlt : parseDigits db < parseDigits da) (fuel : Nat) :
    tokenizeRegex ('a' :: '\x7b' :: (da ++ ',' :: (db ++ ['\x7d']))) =
      .error "PARSE ERROR" ∧
    compileDFA fuel ('a' :: '\x7b' :: (da ++ ',' :: (db ++ ['\x7d']))) =
      .error "PARSE ERROR" ∧
    tokenizeRegex ['a', '\x7b', '1', ',', '2', ',', '3', '\x7d'] = .error "ERROR" ∧
    compileDFA fuel ['a', '\x7b', '1', ',', '2', ',', '3', '\x7d'] = .error "ERROR" := by
  have key : tokenizeRegex ('a' :: '\x7b' :: (da ++ ',' :: (db ++ ['\x7d']))) =
      .error "PARSE ERROR" := by
    rw [tokenizeRegex_eq_runTok]
    set st1 : LexSt :=
      { tokens := [Tok.tchar (some 'a') (1, 1)], notCommand := false,
        brActive := false, lrActive := true, lrA := [], lrB := [], lrVal := 0 }
      with hst1
    rw [runTok_cons_ok _ (show tokStep LexSt.init 'a' =
      .ok { LexSt.init with tokens := [Tok.tchar (some 'a') (1, 1)] } from rfl)]
    rw [runTok_cons_ok _ (show
      tokStep { LexSt.init with tokens := [Tok.tchar (some 'a') (1, 1)] } '\x7b' =
        .ok st1 from rfl)]
    rw [runTok_append_ok _ (tok_digit_run_A da st1 hda rfl rfl rfl)]
    set st2 : LexSt := { st1 with lrA := da, lrVal := 1 } with hst2
    rw [runTok_cons_ok _ (show tokStep { st1 with lrA := ([] : List Char) ++ da } ',' =
      .ok st2 by simp [tokStep, hst2, hst1])]
    rw [runTok_append_ok _ (tok_digit_run_B db st2 hdb rfl rfl rfl)]
    have hbrace : tokStep { st2 with lrB := ([] : List Char) ++ db } '\x7d' =
        .error "PARSE ERROR" := by
      have h1 : (da == ([] : List Char)) = false := by simp [hane]
      have h2 : (db == ([] : List Char)) = false := by simp [hbne]
      have h3 : ((parseDigits db : Int) != -1) = true := by
        simp only [bne_iff_ne, ne_eq]
        omega
      have h4 : (parseDigits db : Int) < (parseDigits da : Int) := by
        exact_mod_cast hlt
      simp [tokStep, hst2, hst1, h1, h2, h3, h4]
    rw [runTok_single_err hbrace]
    rfl
  refine ⟨key, compileDFA_of_tokenize_error _ _ key fuel, rfl,
    compileDFA_of_tokenize_error ['a', '\x7b', '1', ',', '2', ',', '3', '\x7d']
      "ERROR" rfl fuel⟩

/-- Witness for the C8 theorem at the concrete pattern `a{3,1}` (and the
fixed `a{1,2,3}` case). -/
theorem c8_range_error_before_construction_witness :
    tokenizeRegex ('a' :: '\x7b' :: (['3'] ++ ',' :: (['1'] ++ ['\x7d']))) =
      .error "PARSE ERROR" ∧
    compileDFA 200 ('a' :: '\x7b' :: (['3'] ++ ',' :: (['1'] ++ ['\x7d']))) =
      .error "PARSE ERROR" ∧
    tokenizeRegex ['a', '\x7b', '1', ',', '2', ',', '3', '\x7d'] = .error "ERROR" ∧
    compileDFA 200 ['a', '\x7b', '1', ',', '2', ',', '3', '\x7d'] = .error "ERROR" :=
  c8_range_error_before_construction ['3'] ['1'] (by decide) (by decide)
    (by decide) (by decide) (by decide) 200

/-! ### Key-set lemmas for DFA entries, used for the totality claim -/

theorem listSet_getD_ne {α : Type} (l : List α) (i j : Nat) (a d : α)
    (h : j ≠ i) : (listSet l i a).getD j d = l.getD j d := by
  simp [listSet, List.getD, List.getElem?_set_ne (Ne.symm h)]

theorem listSet_getD_self {α : Type} (l : List α) (i : Nat) (a d : α)
    (h : i < l.length) : (listSet l i a).getD i d = a := by
  simp [listSet, List.getD, List.getElem?_set_self, h]

/-- A symbol lookup on a DFA entry succeeds exactly when the symbol is
among the entry's keys. -/
theorem DEntry.get_isSome_iff (e : DEntry) (c : Char) :
    (e.get c).isSome ↔ c ∈ e.symKeys := by
  simp only [DEntry.get, DEntry.symKeys, Option.isSome_map', List.find?_isSome,
    List.mem_map, beq_iff_eq]

theorem anyKey_iff (l : List (Char × Nat)) (c : Char) :
    (l.any fun p => p.1 == c) = true ↔ c ∈ l.map Prod.fst := by
  simp only [List.any_eq_true, List.mem_map, beq_iff_eq]

/-- Setting an existing key updates it in place: the key list is
unchanged. -/
theorem DEntry.set_symKeys_of_mem (e : DEntry) (c : Char) (v : Nat)
    (h : c ∈ e.symKeys) : (e.set c v).symKeys = e.symKeys := by
  have pointwise : ∀ l : List (Char × Nat),
      (l.map (fun p => if p.1 == c then (c, v) else p)).map Prod.fst =
        l.map Prod.fst := by
    intro l
    rw [List.map_map]
    refine List.map_congr_left fun p _ => ?_
    by_cases hp : p.1 = c
    · simp [hp]
    · simp [hp]
  have hmem : c ∈ e.syms.map Prod.fst ∨ c ∈ e.late.map Prod.fst := by
    simpa only [DEntry.symKeys, List.map_append, List.mem_append] using h
  by_cases h1 : (e.syms.any fun p => p.1 == c) = true
  · simp only [DEntry.set, h1, if_true, DEntry.symKeys, List.map_append,
      pointwise]
  · have h2 : (e.late.any fun p => p.1 == c) = true := by
      rw [anyKey_iff]
      rcases hmem with hm | hm
      · exact absurd ((anyKey_iff _ _).mpr hm) h1
      · exact hm
    simp only [DEntry.set, h1, h2, Bool.false_eq_true, if_false, if_true,
      DEntry.symKeys, List.map_append, pointwise]

/-- Setting a key makes it present; keys are never removed. -/
theorem DEntry.set_symKeys_sup (e : DEntry) (c c' : Char) (v : Nat) :
    c' ∈ (e.set c v).symKeys ↔ c' ∈ e.symKeys ∨ c' = c := by
  by_cases hmem : c ∈ e.symKeys
  · rw [DEntry.set_symKeys_of_mem e c v hmem]
    constructor
    · exact Or.inl
    · rintro (h | rfl)
      · exact h
      · exact hmem
  · have hmem' : c ∉ e.syms.map Prod.fst ∧ c ∉ e.late.map Prod.fst := by
      constructor <;> intro hm <;> refine hmem ?_ <;>
        simp only [DEntry.symKeys, List.map_append, List.mem_append] <;>
        tauto
    have h1 : (e.syms.any fun p => p.1 == c) = false := by
      rw [Bool.eq_false_iff]
      intro hx
      exact hmem'.1 ((anyKey_iff _ _).mp hx)
    have h2 : (e.late.any fun p => p.1 == c) = false := by
      rw [Bool.eq_false_iff]
      intro hx
      exact hmem'.2 ((anyKey_iff _ _).mp hx)
    by_cases hf : e.hasFlags <;>
      · simp only [DEntry.set, h1, h2, Bool.false_eq_true, if_false, hf,
          if_true, DEntry.symKeys, List.map_append, List.mem_append,
          List.map_cons, List.map_nil, List.mem_singleton, List.mem_cons,
          List.not_mem_nil, or_false]
        tauto

/-- Setting any key never removes existing keys. -/
theorem DEntry.set_get_isSome_mono (e : DEntry) (c c' : Char) (v : Nat)
    (h : (e.get c').isSome) : ((e.set c v).get c').isSome := by
  rw [DEntry.get_isSome_iff] at h ⊢
  rw [DEntry.set_symKeys_sup]
  exact Or.inl h

/-- The freshly set key is present afterwards. -/
theorem DEntry.set_get_self_isSome (e : DEntry) (c : Char) (v : Nat) :
    ((e.set c v).get c).isSome := by
  rw [DEntry.get_isSome_iff, DEntry.set_symKeys_sup]
  exact Or.inr rfl

/-- The value updates of `RemoveState` only touch existing keys, so an
entry's key list is unchanged. -/
theorem removeUpd_symKeys (state newState : Nat) (staleSyms : List Char)
    (e : DEntry) : (removeUpd state newState staleSyms e).symKeys = e.symKeys := by
  rw [removeUpd]
  induction staleSyms generalizing e with
  | nil => rfl
  | cons c cs ih =>
    rw [List.foldl_cons]
    rcases hg : e.get c with - | v
    · simpa [hg] using ih e
    · have hmem : c ∈ e.symKeys := (DEntry.get_isSome_iff e c).mp (by simp [hg])
      simp only [hg]
      rw [ih (e.set c _), DEntry.set_symKeys_of_mem e c _ hmem]

/-- Fold preservation of an invariant. -/
theorem foldl_inv {α β : Type} (C : β → Prop) (step : β → α → β) :
    ∀ (l : List α) (b : β), C b → (∀ b a, a ∈ l → C b → C (step b a)) →
      C (l.foldl step b) := by
  intro l
  induction l with
  | nil => intro b hb _; exact hb
  | cons x xs ih =>
    intro b hb hs
    exact ih (step b x) (hs b x (by simp) hb)
      (fun b a ha hc => hs b a (by simp [ha]) hc)

/-! ### `AddDeadState`: completion facts -/

theorem adsInnerStep_none (m i : Nat) (u : DTable) :
    adsInnerStep m i u none = u := rfl

theorem adsInnerStep_present (m i : Nat) (u : DTable) (c : Char)
    (h : ((u.getD i DEntry.mk0).get c).isSome) :
    adsInnerStep m i u (some c) = u := by
  rcases hv : (u.getD i DEntry.mk0).get c with - | w
  · rw [hv] at h; exact absurd h (by simp)
  · rw [adsInnerStep]
    rw [if_neg (by rw [hv]; simp)]

theorem adsInnerStep_missing_append (m i : Nat) (u : DTable) (c : Char)
    (hg : (u.getD i DEntry.mk0).get c = none) (hm : u.length = m) :
    adsInnerStep m i u (some c) =
      listSet (u ++ [sinkEntry]) i
        (((u ++ [sinkEntry]).getD i DEntry.mk0).set c m) := by
  rw [adsInnerStep]
  rw [if_pos (by rw [hg]; rfl)]
  show listSet (if (u.length == m) = true then _ else _) i _ = _
  rw [if_pos (by simpa using hm)]

theorem adsInnerStep_missing_old (m i : Nat) (u : DTable) (c : Char)
    (hg : (u.getD i DEntry.mk0).get c = none) (hm : u.length ≠ m) :
    adsInnerStep m i u (some c) =
      listSet u i ((u.getD i DEntry.mk0).set c m) := by
  rw [adsInnerStep]
  rw [if_pos (by rw [hg]; rfl)]
  show listSet (if (u.length == m) = true then _ else _) i _ = _
  rw [if_neg (by simpa using hm)]

/-- The table length either stays put or grows once to `m + 1`. -/
theorem adsInnerStep_length (m i : Nat) (u : DTable) (v : Option Char)
    (hL : u.length = m ∨ u.length = m + 1) :
    (adsInnerStep m i u v).length = m ∨ (adsInnerStep m i u v).length = m + 1 := by
  rcases v with - | c
  · exact hL
  · rcases hg : (u.getD i DEntry.mk0).get c with - | w
    · by_cases hm : u.length = m
      · rw [adsInnerStep_missing_append m i u c hg hm, listSet_length]
        right
        simp [hm]
      · rw [adsInnerStep_missing_old m i u c hg hm, listSet_length]
        exact hL
    · rw [adsInnerStep_present m i u c (by rw [hg]; rfl)]
      exact hL

/-- Presence of a key anywhere in the table is monotone under the
completion step. -/
theorem adsInnerStep_mono (m i : Nat) (hi : i < m) (u : DTable) (v : Option Char)
    (_hL : u.length = m ∨ u.length = m + 1) (j : Nat) (c' : Char)
    (h : ((u.getD j DEntry.mk0).get c').isSome) :
    (((adsInnerStep m i u v).getD j DEntry.mk0).get c').isSome := by
  have hjlt : j < u.length := by
    by_contra hge
    rw [List.getD_eq_default _ _ (by omega)] at h
    exact absurd h (by simp [DEntry.mk0, DEntry.get])
  rcases v with - | c
  · exact h
  · rcases hg : (u.getD i DEntry.mk0).get c with - | w
    · by_cases hm : u.length = m
      · rw [adsInnerStep_missing_append m i u c hg hm]
        by_cases hij : j = i
        · subst hij
          rw [listSet_getD_self _ _ _ _ (by simp; omega)]
          refine DEntry.set_get_isSome_mono _ _ _ _ ?_
          rwa [List.getD_append _ _ _ _ hjlt]
        · rw [listSet_getD_ne _ _ _ _ _ hij]
          rwa [List.getD_append _ _ _ _ hjlt]
      · rw [adsInnerStep_missing_old m i u c hg hm]
        by_cases hij : j = i
        · subst hij
          rw [listSet_getD_self _ _ _ _ hjlt]
          exact DEntry.set_get_isSome_mono _ _ _ _ h
        · rwa [listSet_getD_ne _ _ _ _ _ hij]
    · rw [adsInnerStep_present m i u c (by rw [hg]; rfl)]
      exact h

/-- After the completion step for symbol `c` at state `i < m`, the key
`c` is present at `i`. -/
theorem adsInnerStep_self (m i : Nat) (hi : i < m) (u : DTable) (c : Char)
    (hL : u.length = m ∨ u.length = m + 1) :
    (((adsInnerStep m i u (some c)).getD i DEntry.mk0).get c).isSome := by
  rcases hg : (u.getD i DEntry.mk0).get c with - | w
  · by_cases hm : u.length = m
    · rw [adsInnerStep_missing_append m i u c hg hm]
      rw [listSet_getD_self _ _ _ _ (by simp; omega)]
      exact DEntry.set_get_self_isSome _ _ _
    · have hlen : u.length = m + 1 := by
        rcases hL with h | h
        · exact absurd h hm
        · exact h
      rw [adsInnerStep_missing_old m i u c hg hm]
      rw [listSet_getD_self _ _ _ _ (by omega)]
      exact DEntry.set_get_self_isSome _ _ _
  · rw [adsInnerStep_present m i u c (by rw [hg]; rfl)]
    rw [hg]
    rfl

/-- The appended sink entry (at index `m`, when present) keeps an empty
symbol-key list through the completion loop. -/
theorem adsInnerStep_sink (m i : Nat) (hi : i < m) (u : DTable) (v : Option Char)
    (hL : u.length = m ∨ u.length = m + 1)
    (hsk : u.length = m + 1 → (u.getD m DEntry.mk0).symKeys = []) :
    (adsInnerStep m i u v).length = m + 1 →
      ((adsInnerStep m i u v).getD m DEntry.mk0).symKeys = [] := by
  rcases v with - | c
  · exact hsk
  · rcases hg : (u.getD i DEntry.mk0).get c with - | w
    · by_cases hm : u.length = m
      · rw [adsInnerStep_missing_append m i u c hg hm]
        intro _
        rw [listSet_getD_ne _ _ _ _ _ (by omega : m ≠ i)]
        rw [show m = u.length from hm.symm,
          List.getD_append_right _ _ _ _ (le_refl _)]
        simp [sinkEntry, DEntry.symKeys]
      · have hlen : u.length = m + 1 := by
          rcases hL with h | h
          · exact absurd h hm
          · exact h
        rw [adsInnerStep_missing_old m i u c hg hm]
        intro _
        rw [listSet_getD_ne _ _ _ _ _ (by omega : m ≠ i)]
        exact hsk hlen
    · rw [adsInnerStep_present m i u c (by rw [hg]; rfl)]
      exact hsk

/-- Summary of `AddDeadState`: the length grows by at most one (by one
exactly when a sink was appended); every pre-existing state ends up with
every non-epsilon symbol present; and the appended sink, when present,
has no symbol keys. -/
theorem addDeadState_spec (t : DTable) (values : List (Option Char)) :
    ((addDeadState t values).length = t.length ∨
      (addDeadState t values).length = t.length + 1) ∧
    (∀ i, i < t.length → ∀ c, (some c) ∈ values →
      (((addDeadState t values).getD i DEntry.mk0).get c).isSome) ∧
    ((addDeadState t values).length = t.length + 1 →
      ((addDeadState t values).getD t.length DEntry.mk0).symKeys = []) := by
  set m := t.length with hm
  have main : ∀ (is : List Nat) (u : DTable), (∀ i ∈ is, i < m) →
      (u.length = m ∨ u.length = m + 1) →
      (u.length = m + 1 → (u.getD m DEntry.mk0).symKeys = []) →
      let r := is.foldl (fun t i => values.foldl (adsInnerStep m i) t) u
      (r.length = m ∨ r.length = m + 1) ∧
      (r.length = m + 1 → (r.getD m DEntry.mk0).symKeys = []) ∧
      (∀ j c', (((u.getD j DEntry.mk0).get c').isSome) →
        ((r.getD j DEntry.mk0).get c').isSome) ∧
      (∀ i ∈ is, ∀ c, (some c) ∈ values →
        ((r.getD i DEntry.mk0).get c).isSome) := by
    intro is
    induction is with
    | nil =>
      intro u _ hL hsk
      exact ⟨hL, hsk, fun j c' h => h, by simp⟩
    | cons x xs ih =>
      intro u hmem hL hsk
      have hx : x < m := hmem x (by simp)
      -- facts about one inner pass (over `values`) at index `x`
      have inner : ∀ (vs : List (Option Char)) (u0 : DTable),
          (u0.length = m ∨ u0.length = m + 1) →
          (u0.length = m + 1 → (u0.getD m DEntry.mk0).symKeys = []) →
          let r0 := vs.foldl (adsInnerStep m x) u0
          (r0.length = m ∨ r0.length = m + 1) ∧
          (r0.length = m + 1 → (r0.getD m DEntry.mk0).symKeys = []) ∧
          (∀ j c', (((u0.getD j DEntry.mk0).get c').isSome) →
            ((r0.getD j DEntry.mk0).get c').isSome) ∧
          (∀ c, (some c) ∈ vs → ((r0.getD x DEntry.mk0).get c).isSome) := by
        intro vs
        induction vs with
        | nil => intro u0 hL0 hsk0; exact ⟨hL0, hsk0, fun j c' h => h, by simp⟩
        | cons v vs ihv =>
          intro u0 hL0 hsk0
          have hL1 := adsInnerStep_length m x u0 v hL0
          have hsk1 := adsInnerStep_sink m x hx u0 v hL0 hsk0
          obtain ⟨rL, rSk, rMono, rAll⟩ := ihv (adsInnerStep m x u0 v) hL1 hsk1
          refine ⟨rL, rSk, ?_, ?_⟩
          · intro j c' h
            exact rMono j c' (adsInnerStep_mono m x hx u0 v hL0 j c' h)
          · intro c hc
            rcases List.mem_cons.mp hc with hv | hv
            · subst hv
              exact rMono x c (adsInnerStep_self m x hx u0 c hL0)
            · exact rAll c hv
      obtain ⟨iL, iSk, iMono, iAll⟩ := inner values u hL hsk
      obtain ⟨rL, rSk, rMono, rAll⟩ :=
        ih (values.foldl (adsInnerStep m x) u) (fun i hi => hmem i (by simp [hi]))
          iL iSk
      refine ⟨rL, rSk, fun j c' h => rMono j c' (iMono j c' h), ?_⟩
      intro i hi c hc
      rcases List.mem_cons.mp hi with hix | hix
      · subst hix
        exact rMono i c (iAll c hc)
      · exact rAll i hix c hc
  obtain ⟨hL, hSk, _, hAll⟩ :=
    main (List.range m) t (by intro i hi; simpa using hi) (Or.inl rfl)
      (by intro h; omega)
  refine ⟨hL, ?_, hSk⟩
  intro i hi c hc
  exact hAll i (by simpa using hi) c hc

/-! ### `RemoveState`: the surviving entries keep their key lists -/

theorem getD_take {α : Type} (l : List α) (k j : Nat) (d : α) (h : j < k) :
    (l.take k).getD j d = l.getD j d := by
  simp [List.getD, List.getElem?_take, h]

/-- One iteration of the `RemoveState` loop changes entry key-lists only
by moving them: position `i` gets a value-updated (key-preserving) entry
and, past the removed state, position `i - 1` receives position `i`'s
entry. -/
theorem removeStateLoop_shape_gt (s n : Nat) :
    ∀ rem i u, i + rem = u.length → s < i →
      (removeStateLoop s n i rem u).length = u.length ∧
      (∀ j, j < i - 1 →
        ((removeStateLoop s n i rem u).getD j DEntry.mk0).symKeys =
          (u.getD j DEntry.mk0).symKeys) ∧
      (∀ j, i - 1 ≤ j → j + 2 ≤ u.length →
        ((removeStateLoop s n i rem u).getD j DEntry.mk0).symKeys =
          (u.getD (j + 1) DEntry.mk0).symKeys) ∧
      (((removeStateLoop s n i rem u).getD (u.length - 1) DEntry.mk0).symKeys =
        (u.getD (u.length - 1) DEntry.mk0).symKeys) := by
  intro rem
  induction rem with
  | zero =>
    intro i u hi _
    refine ⟨rfl, fun j _ => rfl, fun j h1 h2 => ?_, rfl⟩
    omega
  | succ rem ih =>
    intro i u hi hs
    have hilt : i < u.length := by omega
    have hige : 1 ≤ i := by omega
    rw [removeStateLoop]
    rw [if_pos hs]
    set u1 : DTable := listSet u i
      (removeUpd s n ((u.getD s DEntry.mk0).symKeys) (u.getD i DEntry.mk0))
      with hu1
    set u2 : DTable := listSet u1 (i - 1) (u1.getD i DEntry.mk0) with hu2
    have hlen1 : u1.length = u.length := by rw [hu1, listSet_length]
    have hlen2 : u2.length = u.length := by rw [hu2, listSet_length, hlen1]
    -- symKeys of u2 in terms of u
    have hkeys : ∀ j, (u2.getD j DEntry.mk0).symKeys =
        (u.getD (if j = i - 1 then i else j) DEntry.mk0).symKeys := by
      intro j
      by_cases hj1 : j = i - 1
      · subst hj1
        rw [hu2, listSet_getD_self _ _ _ _ (by omega), if_pos rfl, hu1]
        rw [listSet_getD_self _ _ _ _ (by omega), removeUpd_symKeys]
      · rw [if_neg hj1, hu2, listSet_getD_ne _ _ _ _ _ hj1, hu1]
        by_cases hj2 : j = i
        · subst hj2
          rw [listSet_getD_self _ _ _ _ (by omega), removeUpd_symKeys]
        · rw [listSet_getD_ne _ _ _ _ _ hj2]
    obtain ⟨rL, rLow, rMid, rLast⟩ :=
      ih (i + 1) u2 (by omega) (by omega)
    refine ⟨by rw [rL, hlen2], ?_, ?_, ?_⟩
    · intro j hj
      rw [rLow j (by omega), hkeys j]
      by_cases hj1 : j = i - 1
      · omega
      · rw [if_neg hj1]
    · intro j hj1 hj2
      rcases Nat.lt_or_ge j i with hj3 | hj3
      · have hj4 : j = i - 1 := by omega
        subst hj4
        rw [rLow (i - 1) (by omega), hkeys (i - 1), if_pos rfl]
        congr 2
        omega
      · rw [rMid j (by omega) (by omega), hkeys (j + 1),
          if_neg (by omega)]
    · rw [show u2.length - 1 = u.length - 1 from by rw [hlen2]] at rLast
      rw [rLast, hkeys (u.length - 1), if_neg (by omega)]

/-- The `RemoveState` loop starting below the removed index: entries
before `s` keep their key lists in place, entries from `s` on receive the
next entry's key list, and the final slot keeps the last entry. -/
theorem removeStateLoop_shape_le (s n : Nat) :
    ∀ rem i u, i + rem = u.length → i ≤ s → s + 1 < u.length →
      (removeStateLoop s n i rem u).length = u.length ∧
      (∀ j, j < s →
        ((removeStateLoop s n i rem u).getD j DEntry.mk0).symKeys =
          (u.getD j DEntry.mk0).symKeys) ∧
      (∀ j, s ≤ j → j + 2 ≤ u.length →
        ((removeStateLoop s n i rem u).getD j DEntry.mk0).symKeys =
          (u.getD (j + 1) DEntry.mk0).symKeys) ∧
      (((removeStateLoop s n i rem u).getD (u.length - 1) DEntry.mk0).symKeys =
        (u.getD (u.length - 1) DEntry.mk0).symKeys) := by
  intro rem
  induction rem with
  | zero =>
    intro i u hi hle hslt
    exact absurd rfl (by omega : i ≠ i)
  | succ rem ih =>
    intro i u hi hle hslt
    have hilt : i < u.length := by omega
    rw [removeStateLoop]
    rw [if_neg (by omega)]
    set u1 : DTable := listSet u i
      (removeUpd s n ((u.getD s DEntry.mk0).symKeys) (u.getD i DEntry.mk0))
      with hu1
    have hlen1 : u1.length = u.length := by rw [hu1, listSet_length]
    have hkeys : ∀ j, (u1.getD j DEntry.mk0).symKeys =
        (u.getD j DEntry.mk0).symKeys := by
      intro j
      by_cases hj : j = i
      · subst hj
        rw [hu1, listSet_getD_self _ _ _ _ (by omega), removeUpd_symKeys]
      · rw [hu1, listSet_getD_ne _ _ _ _ _ hj]
    rcases Nat.lt_or_ge i s with hcase | hcase
    · obtain ⟨rL, rLow, rMid, rLast⟩ := ih (i + 1) u1 (by omega) (by omega)
        (by omega)
      refine ⟨by rw [rL, hlen1], ?_, ?_, ?_⟩
      · intro j hj; rw [rLow j hj, hkeys j]
      · intro j hj1 hj2; rw [rMid j hj1 (by omega), hkeys (j + 1)]
      · rw [show u1.length - 1 = u.length - 1 from by rw [hlen1]] at rLast
        rw [rLast, hkeys (u.length - 1)]
    · have hieq : i = s := by omega
      obtain ⟨rL, rLow, rMid, rLast⟩ :=
        removeStateLoop_shape_gt s n rem (i + 1) u1 (by omega) (by omega)
      refine ⟨by rw [rL, hlen1], ?_, ?_, ?_⟩
      · intro j hj; rw [rLow j (by omega), hkeys j]
      · intro j hj1 hj2; rw [rMid j (by omega) (by omega), hkeys (j + 1)]
      · rw [show u1.length - 1 = u.length - 1 from by rw [hlen1]] at rLast
        rw [rLast, hkeys (u.length - 1)]

/-- `RemoveState` erases state `s`: the result is one entry shorter, the
entries' key lists are those of the original table with index `s`
skipped, and the last slot of the result holds the (value-updated) old
last entry. -/
theorem removeState_shape (t : DTable) (s n : Nat) (hs : s + 1 < t.length) :
    (removeState t s n).length = t.length - 1 ∧
    (∀ j, j + 1 < t.length →
      ((removeState t s n).getD j DEntry.mk0).symKeys =
        (t.getD (if j < s then j else j + 1) DEntry.mk0).symKeys) := by
  obtain ⟨rL, rLow, rMid, _⟩ :=
    removeStateLoop_shape_le s n t.length 0 t (by omega) (by omega) hs
  constructor
  · rw [removeState, List.length_take, rL]
    omega
  · intro j hj
    rw [removeState, getD_take _ _ _ _ (by omega)]
    by_cases hjs : j < s
    · rw [if_pos hjs, rLow j hjs]
    · rw [if_neg hjs, rMid j (by omega) (by omega)]

/-- The totality invariant carried through `SimplifyDeadStates`: every
entry but the last has every non-epsilon symbol of the alphabet among its
keys, and the last entry's key list is a fixed list `K`. -/
def TotalInv (values : List (Option Char)) (K : List Char) (u : DTable) : Prop :=
  (∀ j, j + 1 < u.length → ∀ c, (some c) ∈ values →
    c ∈ (u.getD j DEntry.mk0).symKeys) ∧
  (u.getD (u.length - 1) DEntry.mk0).symKeys = K

theorem removeState_totalInv (values : List (Option Char)) (K : List Char)
    (t : DTable) (s n : Nat) (hs : s + 1 < t.length)
    (h : TotalInv values K t) : TotalInv values K (removeState t s n) := by
  obtain ⟨hlen, hshape⟩ := removeState_shape t s n hs
  obtain ⟨hall, hlast⟩ := h
  constructor
  · intro j hj c hc
    rw [hshape j (by omega)]
    by_cases hjs : j < s
    · rw [if_pos hjs]
      exact hall j (by omega) c hc
    · rw [if_neg hjs]
      exact hall (j + 1) (by omega) c hc
  · rw [hlen]
    have h2 : t.length - 1 - 1 + 1 < t.length := by omega
    rw [hshape (t.length - 1 - 1) (by omega), if_neg (by omega)]
    rw [show t.length - 1 - 1 + 1 = t.length - 1 from by omega]
    exact hlast

theorem simplifyLoop_totalInv (values : List (Option Char)) (K : List Char)
    (fuel : Nat) :
    ∀ rem i u r, TotalInv values K u →
      simplifyLoop fuel rem i u = some r → TotalInv values K r := by
  intro rem
  induction rem with
  | zero =>
    intro i u r hinv hr
    rw [simplifyLoop] at hr
    split at hr
    · exact absurd hr (by simp)
    · injection hr with hr
      rwa [hr] at hinv
  | succ rem ih =>
    intro i u r hinv hr
    rw [simplifyLoop] at hr
    split at hr
    · rename_i hlt
      split at hr
      · exact absurd hr (by simp)
      · exact ih (i + 1) _ r
          (removeState_totalInv values K u i (u.length - 1) (by omega) hinv) hr
      · exact ih (i + 1) u r hinv hr
    · injection hr with hr
      rwa [hr] at hinv

theorem simplifyLoop_length_le (fuel : Nat) :
    ∀ rem i u r, simplifyLoop fuel rem i u = some r → r.length ≤ u.length := by
  intro rem
  induction rem with
  | zero =>
    intro i u r hr
    rw [simplifyLoop] at hr
    split at hr
    · exact absurd hr (by simp)
    · injection hr with hr
      rw [hr]
  | succ rem ih =>
    intro i u r hr
    rw [simplifyLoop] at hr
    split at hr
    · split at hr
      · exact absurd hr (by simp)
      · have := ih (i + 1) _ r hr
        rw [removeState_length] at this
        omega
      · exact ih (i + 1) u r hr
    · injection hr with hr
      rw [hr]

/-- Claim C3, amended: after `AddDeadState` and `SimplifyDeadStates`,
every DFA state other than the appended sink has an outgoing transition
for every non-epsilon symbol of the alphabet list, while the appended
sink itself — when one was created, in which case it is the last state —
has no outgoing transitions at all; when no sink was needed, every state
including the last is total. -/
theorem c3_total_except_sink_amended (t : DTable) (values : List (Option Char))
    (fuel : Nat) (t2 : DTable)
    (h : simplifyDeadStates fuel (addDeadState t values) = some t2) :
    (∀ j, j + 1 < t2.length → ∀ c, (some c) ∈ values →
      ((t2.getD j DEntry.mk0).get c).isSome) ∧
    ((addDeadState t values).length = t.length + 1 →
      (t2.getD (t2.length - 1) DEntry.mk0).symKeys = []) ∧
    ((addDeadState t values).length = t.length →
      ∀ j, j < t2.length → ∀ c, (some c) ∈ values →
        ((t2.getD j DEntry.mk0).get c).isSome) := by
  obtain ⟨adsLen, adsAll, adsSink⟩ := addDeadState_spec t values
  set t1 : DTable := addDeadState t values with ht1
  set K : List Char := (t1.getD (t1.length - 1) DEntry.mk0).symKeys with hK
  have hinv : TotalInv values K t1 := by
    constructor
    · intro j hj c hc
      rw [← DEntry.get_isSome_iff]
      refine adsAll j ?_ c hc
      rcases adsLen with hL | hL <;> omega
    · rfl
  have hinv2 : TotalInv values K t2 :=
    simplifyLoop_totalInv values K fuel t1.length 0 t1 t2 hinv h
  obtain ⟨h2all, h2last⟩ := hinv2
  refine ⟨?_, ?_, ?_⟩
  · intro j hj c hc
    rw [DEntry.get_isSome_iff]
    exact h2all j hj c hc
  · intro hsink
    rw [h2last, hK, hsink]
    rw [show t.length + 1 - 1 = t.length from by omega]
    exact adsSink hsink
  · intro hnosink j hj c hc
    by_cases hjlast : j + 1 < t2.length
    · rw [DEntry.get_isSome_iff]
      exact h2all j hjlast c hc
    · have hj2 : j = t2.length - 1 := by omega
      subst hj2
      have hm : 0 < t.length := by
        have hle := simplifyLoop_length_le fuel t1.length 0 t1 t2 h
        omega
      have hx : ((t1.getD (t1.length - 1) DEntry.mk0).get c).isSome := by
        rw [hnosink]
        exact adsAll (t.length - 1) (by omega) c hc
      rw [DEntry.get_isSome_iff] at hx
      rw [DEntry.get_isSome_iff, h2last, hK]
      exact hx

/-- Witness for the amended C3 theorem: the pre-completion table of the
pattern `a` (three states, the third with no transitions), alphabet
`['a']`; the sink is appended, the dead empty-subset state 2 is removed,
and in the resulting table states 0 and 1 have an `'a'` transition while
the final sink has none. -/
theorem c3_total_except_sink_amended_witness :
    (∀ j, j + 1 < litATable.length → ∀ c, (some c) ∈ [some 'a'] →
      ((litATable.getD j DEntry.mk0).get c).isSome) ∧
    ((addDeadState
        [⟨[('a', 1)], true, true, false, []⟩,
         ⟨[('a', 2)], true, false, true, []⟩,
         ⟨[], true, false, false, []⟩] [some 'a']).length = 3 + 1 →
      (litATable.getD (litATable.length - 1) DEntry.mk0).symKeys = []) ∧
    ((addDeadState
        [⟨[('a', 1)], true, true, false, []⟩,
         ⟨[('a', 2)], true, false, true, []⟩,
         ⟨[], true, false, false, []⟩] [some 'a']).length = 3 →
      ∀ j, j < litATable.length → ∀ c, (some c) ∈ [some 'a'] →
        ((litATable.getD j DEntry.mk0).get c).isSome) :=
  c3_total_except_sink_amended
    [⟨[('a', 1)], true, true, false, []⟩,
     ⟨[('a', 2)], true, false, true, []⟩,
     ⟨[], true, false, false, []⟩] [some 'a'] 10 litATable rfl

/-! ### C5: DFA state identity is set identity of NFA subsets -/

theorem contains_iff_mem (l : List Nat) (x : Nat) :
    l.contains x = true ↔ x ∈ l := by
  simp [List.contains, List.elem_iff]

/-- For duplicate-free lists the `GetMapping` comparison (equal lengths
plus containment of every probe element) is exactly order-independent set
equality. -/
theorem matchesMem_iff (M A : List Nat) (hM : M.Nodup) (hA : A.Nodup) :
    matchesMem M A = true ↔ ∀ x, x ∈ M ↔ x ∈ A := by
  constructor
  · intro h
    rw [matchesMem, Bool.and_eq_true] at h
    obtain ⟨hlen, hall⟩ := h
    have hlen' : M.length = A.length := by simpa using hlen
    have hsub : A ⊆ M := by
      intro x hx
      exact (contains_iff_mem M x).mp (List.all_eq_true.mp hall x hx)
    have hperm : A.Perm M :=
      (hA.subperm hsub).perm_of_length_le (Nat.le_of_eq hlen')
    intro x
    exact (hperm.mem_iff).symm
  · intro h
    have hAM : A ⊆ M := fun x hx => (h x).mpr hx
    have hMA : M ⊆ A := fun x hx => (h x).mp hx
    have h1 := (hA.subperm hAM).length_le
    have h2 := (hM.subperm hMA).length_le
    rw [matchesMem, Bool.and_eq_true]
    constructor
    · simp only [beq_iff_eq]
      omega
    · rw [List.all_eq_true]
      intro x hx
      exact (contains_iff_mem M x).mpr (hAM hx)

theorem findMatch_congr (A B : List Nat) (l : List (List Nat))
    (h : ∀ M ∈ l, matchesMem M A = matchesMem M B) :
    findMatch A l = findMatch B l := by
  induction l with
  | nil => rfl
  | cons M rest ih =>
    rw [findMatch, findMatch, h M (by simp),
      ih (fun M2 h2 => h M2 (by simp [h2]))]

theorem findMatch_lt (A : List Nat) (l : List (List Nat)) (i : Nat)
    (h : findMatch A l = some i) :
    i < l.length ∧ matchesMem (l.getD i []) A = true := by
  induction l generalizing i with
  | nil => exact absurd h (by simp [findMatch])
  | cons M rest ih =>
    rw [findMatch] at h
    by_cases hm : matchesMem M A = true
    · rw [if_pos hm] at h
      injection h with h
      subst h
      exact ⟨Nat.succ_pos _, hm⟩
    · rw [if_neg hm] at h
      match hr : findMatch A rest with
      | none => rw [hr] at h; exact absurd h (by simp)
      | some j =>
        rw [hr] at h
        injection h with h
        subst h
        obtain ⟨h1, h2⟩ := ih j hr
        exact ⟨by simpa using h1, h2⟩

theorem findMatch_none (A : List Nat) (l : List (List Nat)) :
    findMatch A l = none ↔ ∀ M ∈ l, matchesMem M A = false := by
  induction l with
  | nil => simp [findMatch]
  | cons M rest ih =>
    rw [findMatch]
    by_cases hm : matchesMem M A = true
    · simp [hm]
    · rw [if_neg hm]
      constructor
      · intro h M2 h2
        rcases List.mem_cons.mp h2 with h2 | h2
        · subst h2; exact Bool.eq_false_iff.mpr hm
        · refine ih.mp ?_ M2 h2
          cases hr : findMatch A rest with
          | none => rfl
          | some j => rw [hr] at h; exact absurd h (by simp)
      · intro h
        have hrn : findMatch A rest = none :=
          ih.mpr (fun M2 h2 => h M2 (List.mem_cons_of_mem M h2))
        rw [hrn]
        rfl

theorem findMatch_append_single (A A2 : List Nat) (l : List (List Nat)) :
    findMatch A (l ++ [A2]) =
      match findMatch A l with
      | some i => some i
      | none => if matchesMem A2 A then some l.length else none := by
  induction l with
  | nil => simp [findMatch]
  | cons M rest ih =>
    rw [List.cons_append, findMatch, findMatch, ih]
    by_cases hm : matchesMem M A = true
    · simp [hm]
    · rw [if_neg hm, if_neg hm]
      match hr : findMatch A rest with
      | some j => simp
      | none =>
        by_cases hm2 : matchesMem A2 A = true <;> simp [hm2]

theorem getD_mem_of_lt {α : Type} (l : List α) (i : Nat) (d : α)
    (h : i < l.length) : l.getD i d ∈ l := by
  rw [List.getD_eq_getElem l d h]
  exact List.getElem_mem h

/-- Claim C5: for duplicate-free NFA-state subsets `A` and `B` presented
to `GetMapping` in sequence (over a `StateMapping` whose stored subsets
are duplicate-free, as the ones built by `Build` are), the two calls
return the same DFA state id exactly when `A` and `B` contain the same
NFA state ids, independent of order; hence no two distinct DFA ids
denote the same subset. -/
theorem c5_mapping_set_identity (sc : SC) (A B : List Nat)
    (hS : ∀ M ∈ sc.stateMapping, M.Nodup)
    (hA : A.Nodup) (hB : B.Nodup) :
    (((sc.getMapping A).2).getMapping B).1 = (sc.getMapping A).1 ↔
      (∀ x, x ∈ A ↔ x ∈ B) := by
  constructor
  · intro hj
    match hfA : findMatch A sc.stateMapping with
    | some i =>
      have hgA : sc.getMapping A = (i, sc) := by
        rw [SC.getMapping, hfA]
      rw [hgA] at hj
      obtain ⟨hilt, _⟩ := findMatch_lt A sc.stateMapping i hfA
      match hfB : findMatch B sc.stateMapping with
      | some j =>
        have hgB : sc.getMapping B = (j, sc) := by
          rw [SC.getMapping, hfB]
        rw [hgB] at hj
        simp only at hj
        subst hj
        obtain ⟨_, hMA⟩ := findMatch_lt A sc.stateMapping j hfA
        obtain ⟨_, hMB⟩ := findMatch_lt B sc.stateMapping j hfB
        have hMnd : (sc.stateMapping.getD j []).Nodup :=
          hS _ (getD_mem_of_lt sc.stateMapping j [] hilt)
        have h1 := (matchesMem_iff _ A hMnd hA).mp hMA
        have h2 := (matchesMem_iff _ B hMnd hB).mp hMB
        intro x
        exact Iff.trans (Iff.symm (h1 x)) (h2 x)
      | none =>
        have hgB : (sc.getMapping B).1 = sc.stateMapping.length := by
          rw [SC.getMapping, hfB]
        rw [hgB] at hj
        omega
    | none =>
      have hgA : sc.getMapping A =
          (sc.stateMapping.length,
           ⟨sc.stateMapping ++ [A], sc.dfa ++ [DEntry.mk0]⟩) := by
        rw [SC.getMapping, hfA]
      rw [hgA] at hj
      simp only at hj
      rw [SC.getMapping] at hj
      simp only at hj
      rw [findMatch_append_single] at hj
      match hfB : findMatch B sc.stateMapping with
      | some j =>
        rw [hfB] at hj
        simp only at hj
        obtain ⟨hjlt, _⟩ := findMatch_lt B sc.stateMapping j hfB
        omega
      | none =>
        rw [hfB] at hj
        by_cases hm : matchesMem A B = true
        · exact (matchesMem_iff A B hA hB).mp hm
        · rw [if_neg hm] at hj
          simp only [List.length_append, List.length_cons,
            List.length_nil] at hj
          omega
  · intro hset
    have hcong : ∀ M ∈ sc.stateMapping, matchesMem M A = matchesMem M B := by
      intro M hM
      have hMnd := hS M hM
      have hiff : matchesMem M A = true ↔ matchesMem M B = true := by
        rw [matchesMem_iff M A hMnd hA, matchesMem_iff M B hMnd hB]
        constructor
        · intro h x; exact Iff.trans (h x) (hset x)
        · intro h x; exact Iff.trans (h x) (Iff.symm (hset x))
      cases hva : matchesMem M A <;> cases hvb : matchesMem M B
      · rfl
      · rw [hva, hvb] at hiff; simp at hiff
      · rw [hva, hvb] at hiff; simp at hiff
      · rfl
    match hfA : findMatch A sc.stateMapping with
    | some i =>
      have hfB : findMatch B sc.stateMapping = some i := by
        rw [← findMatch_congr A B sc.stateMapping hcong, hfA]
      have hgA : sc.getMapping A = (i, sc) := by
        rw [SC.getMapping, hfA]
      have hgB : sc.getMapping B = (i, sc) := by
        rw [SC.getMapping, hfB]
      rw [hgA]
      show (sc.getMapping B).1 = i
      rw [hgB]
    | none =>
      have hfB : findMatch B sc.stateMapping = none := by
        rw [← findMatch_congr A B sc.stateMapping hcong, hfA]
      have hm : matchesMem A B = true := by
        rw [matchesMem_iff A B hA hB]
        exact hset
      have hgA : sc.getMapping A =
          (sc.stateMapping.length,
           ⟨sc.stateMapping ++ [A], sc.dfa ++ [DEntry.mk0]⟩) := by
        rw [SC.getMapping, hfA]
      rw [hgA]
      show ((SC.mk (sc.stateMapping ++ [A]) (sc.dfa ++ [DEntry.mk0])).getMapping
        B).1 = sc.stateMapping.length
      have hfB2 : findMatch B (sc.stateMapping ++ [A]) =
          some sc.stateMapping.length := by
        rw [findMatch_append_single, hfB, if_pos hm]
      simp [SC.getMapping, hfB2]

/-- The `SubsetConstruction` state actually built for the pattern
`a|ab`: its stored subsets are `[[0,1,3],[2,5,6,4],[],[7]]`, all
duplicate-free. -/
def abSC : SC :=
  (scBuild ((compileNFA 20 (['a', '|', 'a', 'b'] : List Char)).toOption.getD
    NFA.mk0) 20).getD ⟨[], []⟩

/-- The DFA compiled from `a|ab` (which the tree builder actually parses
as `(a|a)b`): state 2 is the accepting state reached on `ab`, state 3
the sink. -/
def abDFA : DTable :=
  (compileDFA 20 (['a', '|', 'a', 'b'] : List Char)).toOption.getD []

/-- Witness for C5 on a real run: the state mapping built for `a|ab` is
duplicate-free, and probing it with `[4,6,5,2]` and then `[2,5,6,4]`
(the same set in different orders) yields the same DFA id. -/
theorem c5_mapping_set_identity_witness :
    ((∀ M ∈ abSC.stateMapping, M.Nodup) ∧
      ([4, 6, 5, 2] : List Nat).Nodup ∧ ([2, 5, 6, 4] : List Nat).Nodup) ∧
    ((((abSC.getMapping [4, 6, 5, 2]).2).getMapping [2, 5, 6, 4]).1 =
        (abSC.getMapping [4, 6, 5, 2]).1 ↔
      (∀ x, x ∈ ([4, 6, 5, 2] : List Nat) ↔ x ∈ ([2, 5, 6, 4] : List Nat))) :=
  ⟨⟨by decide, by decide, by decide⟩,
   c5_mapping_set_identity abSC [4, 6, 5, 2] [2, 5, 6, 4]
     (by decide) (by decide) (by decide)⟩

/-! ### C10: FindAll returns non-empty accepted substrings -/

/-- A successful `ValidWordLength` position is either the carried-in
`lastValid` or a position `x` at which the word slice `word[i..x]` walks
the table from the current state to an accepting state. -/
theorem vwlGo_some_walk (t : DTable) (fuel : Nat) (word : List Char) :
    ∀ rem i state lv x,
      vwlGo t fuel word rem i state lv = some (some x) →
      lv = some x ∨
        (i ≤ x ∧ x < word.length ∧
          isValidWordGo t state ((word.drop i).take (x + 1 - i)) = some true) := by
  intro rem
  induction rem with
  | zero =>
    intro i state lv x h
    rw [vwlGo] at h
    injection h with h
    exact Or.inl h
  | succ rem ih =>
    intro i state lv x h
    rw [vwlGo] at h
    match hw : word.get? i with
    | none =>
      simp only [hw] at h
      injection h with h
      exact Or.inl h
    | some c =>
      simp only [hw] at h
      match hts : t.get? state with
      | none =>
        simp only [hts] at h
        injection h with h
        exact Or.inl h
      | some e =>
        simp only [hts] at h
        match hg : e.get c with
        | none =>
          simp only [hg] at h
          injection h with h
          exact Or.inl h
        | some target =>
          simp only [hg] at h
          match hd : isDeadStateF t fuel target with
          | none =>
            simp only [hd] at h
            exact Option.noConfusion h
          | some true =>
            simp only [hd] at h
            injection h with h
            exact Or.inl h
          | some false =>
            simp only [hd] at h
            match htt : t.get? target with
            | none =>
              simp only [htt] at h
              exact Option.noConfusion h
            | some e2 =>
              simp only [htt] at h
              have hilen : i < word.length := by
                by_contra hge
                rw [List.get?_eq_none.mpr (by omega)] at hw
                exact absurd hw (by simp)
              have hdrop : word.drop i = c :: word.drop (i + 1) := by
                have hx := List.getElem?_eq_some.mp
                  (List.get?_eq_getElem? word i ▸ hw)
                obtain ⟨hlt, hval⟩ := hx
                rw [List.drop_eq_getElem_cons hlt, hval]
              rcases ih (i + 1) target
                  (if e2.endFlag = true then some i else lv) x h with
                hcase | hcase
              · by_cases hef : e2.endFlag = true
                · rw [if_pos hef] at hcase
                  injection hcase with hcase
                  subst hcase
                  refine Or.inr ⟨Nat.le_refl i, hilen, ?_⟩
                  rw [hdrop]
                  have htake1 : (c :: word.drop (i + 1)).take (i + 1 - i) =
                      [c] := by
                    rw [show i + 1 - i = 1 by omega]
                    rfl
                  rw [htake1, isValidWordGo]
                  simp only [hts, hg]
                  rw [isValidWordGo, htt]
                  simp [hef]
                · rw [if_neg hef] at hcase
                  exact Or.inl hcase
              · obtain ⟨h1, h2, h3⟩ := hcase
                refine Or.inr ⟨by omega, h2, ?_⟩
                rw [hdrop]
                have htake2 : (c :: word.drop (i + 1)).take (x + 1 - i) =
                    c :: (word.drop (i + 1)).take (x + 1 - (i + 1)) := by
                  rw [show x + 1 - i = (x + 1 - (i + 1)) + 1 by omega]
                  rfl
                rw [htake2, isValidWordGo]
                simp only [hts, hg]
                exact h3

/-- Every string collected by the `FindAll` loop is either already in the
accumulator or a slice of the word accepted by `IsValidWord`. -/
theorem findAllGo_mem (t : DTable) (fuel : Nat) (word : List Char) :
    ∀ rem i valid res,
      findAllGo t fuel word rem i valid = some res →
      ∀ s ∈ res, s ∈ valid ∨
        ∃ i0 x, i0 ≤ x ∧ x < word.length ∧ s = sliceWord word i0 x ∧
          isValidWordGo t 0 (sliceWord word i0 x) = some true := by
  intro rem
  induction rem with
  | zero =>
    intro i valid res h s hs
    rw [findAllGo] at h
    by_cases hi : i < word.length
    · rw [if_pos hi] at h; exact absurd h (by simp)
    · rw [if_neg hi] at h
      injection h with h
      subst h
      exact Or.inl hs
  | succ rem ih =>
    intro i valid res h s hs
    rw [findAllGo] at h
    by_cases hi : i < word.length
    · rw [if_pos hi] at h
      match hv : validWordLengthF t fuel word i with
      | none =>
        simp only [hv] at h
        exact Option.noConfusion h
      | some none =>
        simp only [hv] at h
        exact ih (i + 1) valid res h s hs
      | some (some x) =>
        simp only [hv] at h
        rcases ih (x + 1) _ res h s hs with hcase | hcase
        · by_cases hc : valid.contains (sliceWord word i x) = true
          · rw [if_pos hc] at hcase
            exact Or.inl hcase
          · rw [if_neg hc] at hcase
            rcases List.mem_append.mp hcase with hcase | hcase
            · exact Or.inl hcase
            · have hseq : s = sliceWord word i x := by simpa using hcase
              rcases vwlGo_some_walk t fuel word (word.length - i) i 0 none x hv
                with hbad | ⟨h1, h2, h3⟩
              · exact absurd hbad (by simp)
              · exact Or.inr ⟨i, x, h1, h2, hseq, h3⟩
        · exact Or.inr hcase
    · rw [if_neg hi] at h
      injection h with h
      subst h
      exact Or.inl hs

/-- Claim C10: whenever `FindAll` returns, every returned element is a
non-empty contiguous slice of the input word, and `IsValidWord` accepts
it; in particular the empty string is never returned. -/
theorem c10_findall_nonempty_accepted_substrings (t : DTable) (fuel : Nat)
    (word : List Char) (res : List (List Char))
    (h : findAllF t fuel word = some res) :
    ∀ s ∈ res, s ≠ [] ∧
      (∃ i x, i ≤ x ∧ x < word.length ∧ s = sliceWord word i x) ∧
      isValidWord t s = some true := by
  intro s hs
  rcases findAllGo_mem t fuel word word.length 0 [] res h s hs with hcase | hcase
  · exact absurd hcase (by simp)
  · obtain ⟨i, x, h1, h2, h3, h4⟩ := hcase
    refine ⟨?_, ⟨i, x, h1, h2, h3⟩, ?_⟩
    · rw [h3, sliceWord]
      have hlen : ((word.drop i).take (x + 1 - i)).length = x + 1 - i := by
        rw [List.length_take, List.length_drop]
        omega
      intro hnil
      rw [hnil] at hlen
      simp at hlen
      omega
    · rw [h3]
      exact h4

/-- Witness for C10: the `a|ab` automaton on the word `aababb` returns
`[['a','b']]`; the single element is the nonempty slice `word[1..2]` and
is accepted. -/
theorem c10_findall_nonempty_accepted_substrings_witness :
    findAllF abDFA 20 (['a', 'a', 'b', 'a', 'b', 'b'] : List Char) =
      some [['a', 'b']] ∧
    ∀ s ∈ ([['a', 'b']] : List (List Char)), s ≠ [] ∧
      (∃ i x, i ≤ x ∧ x < (['a', 'a', 'b', 'a', 'b', 'b'] : List Char).length ∧
        s = sliceWord (['a', 'a', 'b', 'a', 'b', 'b'] : List Char) i x) ∧
      isValidWord abDFA s = some true :=
  ⟨by decide,
   c10_findall_nonempty_accepted_substrings abDFA 20
     (['a', 'a', 'b', 'a', 'b', 'b'] : List Char) [['a', 'b']] (by decide)⟩

/-! ### C7: matching never raises on well-formed tables -/

/-- Wellformedness of a finalized DFA table: the `start`/`end` flag keys
are present on every entry and every transition target is an index inside
the table.  (The spec's totality claim is about tables in this shape;
compiled tables satisfy it, as the witnesses check by evaluation.) -/
def WFTable (t : DTable) : Prop :=
  ∀ e ∈ t, e.hasFlags = true ∧ ∀ p ∈ e.syms ++ e.late, p.2 < t.length

instance wfTableDecidable (t : DTable) : Decidable (WFTable t) :=
  decidable_of_iff
    (∀ e ∈ t, e.hasFlags = true ∧ ∀ p ∈ e.syms ++ e.late, p.2 < t.length)
    Iff.rfl

theorem nodup_bounded_length (l : List Nat) (n : Nat)
    (h1 : l.Nodup) (h2 : ∀ u ∈ l, u < n) : l.length ≤ n := by
  have h3 : l ⊆ List.range n := fun x hx => List.mem_range.mpr (h2 x hx)
  have h4 := (h1.subperm h3).length_le
  simpa using h4

theorem get?_some_of_lt (t : DTable) (s : Nat) (h : s < t.length) :
    ∃ e, t.get? s = some e ∧ e ∈ t := by
  rw [List.get?_eq_getElem?]
  exact ⟨t[s], List.getElem?_eq_getElem h, List.getElem_mem h⟩

theorem mem_of_get?_some (t : DTable) (s : Nat) (e : DEntry)
    (h : t.get? s = some e) : e ∈ t := by
  rw [List.get?_eq_getElem?] at h
  obtain ⟨hlt, hval⟩ := List.getElem?_eq_some.mp h
  exact hval ▸ List.getElem_mem hlt

theorem get_mem_branchTargets (e : DEntry) (c : Char) (v : Nat)
    (h : e.get c = some v) : v ∈ e.branchTargets := by
  rw [DEntry.get] at h
  match hf : (e.syms ++ e.late).find? (fun p => p.1 == c) with
  | none => rw [hf] at h; exact absurd h (by simp)
  | some p =>
    simp only [hf, Option.map] at h
    injection h with h
    rw [DEntry.branchTargets]
    exact List.mem_map.mpr ⟨p, List.mem_of_find?_eq_some hf, h⟩

theorem branchTarget_lt (t : DTable) (hWF : WFTable t) (e : DEntry)
    (he : e ∈ t) (v : Nat) (h : v ∈ e.branchTargets) : v < t.length := by
  rw [DEntry.branchTargets] at h
  obtain ⟨p, hp, hpv⟩ := List.mem_map.mp h
  exact hpv ▸ (hWF e he).2 p hp

/-- Under wellformedness the dead-state search returns within any fuel
exceeding the table size: every nesting step pushes a fresh in-range
state onto `checked`. -/
theorem isDeadRec_total (t : DTable) (hWF : WFTable t) :
    ∀ fuel s checked, checked.Nodup → (∀ u ∈ checked, u < t.length) →
      s < t.length → t.length < checked.length + fuel →
      ∃ b checked', isDeadRecF t fuel s checked = some (b, checked') ∧
        checked'.Nodup ∧ (∀ u ∈ checked', u < t.length) ∧
        ∃ Δ, checked' = checked ++ Δ := by
  intro fuel
  induction fuel with
  | zero =>
    intro s checked h1 h2 h3 h4
    exact absurd (nodup_bounded_length checked t.length h1 h2) (by omega)
  | succ fuel ih =>
    intro s checked h1 h2 h3 h4
    obtain ⟨e, he, hemem⟩ := get?_some_of_lt t s h3
    rw [isDeadRecF]
    simp only [he, DEntry.endFlag]
    by_cases hend : e.endF = true
    · rw [if_pos hend]
      exact ⟨false, checked, rfl, h1, h2, [], by simp⟩
    · rw [if_neg hend]
      by_cases hk : (e.keyCount == 2 || checked.contains s) = true
      · rw [if_pos hk]
        exact ⟨true, checked, rfl, h1, h2, [], by simp⟩
      · rw [if_neg hk]
        have hsnot : s ∉ checked := by
          intro hmem
          apply hk
          rw [Bool.or_eq_true]
          exact Or.inr ((contains_iff_mem checked s).mpr hmem)
        have hbranch : ∀ branches, (∀ v ∈ branches, v < t.length) →
            ∀ checked2, checked2.Nodup → (∀ u ∈ checked2, u < t.length) →
            t.length < checked2.length + fuel →
            ∃ b checked', isDeadBranches (isDeadRecF t fuel) checked2 branches =
                some (b, checked') ∧
              checked'.Nodup ∧ (∀ u ∈ checked', u < t.length) ∧
              ∃ Δ, checked' = checked2 ++ Δ := by
          intro branches
          induction branches with
          | nil =>
            intro _ checked2 g1 g2 _
            exact ⟨true, checked2, rfl, g1, g2, [], by simp⟩
          | cons v rest ihb =>
            intro hbs checked2 g1 g2 g3
            obtain ⟨b1, c1, hc1, hn1, hb1, Δ1, hΔ1⟩ :=
              ih v checked2 g1 g2 (hbs v (by simp)) g3
            cases b1 with
            | false =>
              rw [isDeadBranches]
              simp only [hc1]
              exact ⟨false, c1, rfl, hn1, hb1, Δ1, hΔ1⟩
            | true =>
              have g3' : t.length < c1.length + fuel := by
                rw [hΔ1, List.length_append]
                omega
              obtain ⟨b2, c2, hc2, hn2, hb2, Δ2, hΔ2⟩ :=
                ihb (fun v2 hv2 => hbs v2 (by simp [hv2])) c1 hn1 hb1 g3'
              rw [isDeadBranches]
              simp only [hc1]
              exact ⟨b2, c2, hc2, hn2, hb2, Δ1 ++ Δ2,
                by rw [hΔ2, hΔ1, List.append_assoc]⟩
        have hnew1 : (checked ++ [s]).Nodup := by
          rw [List.nodup_append]
          exact ⟨h1, List.nodup_singleton s,
            fun a ha hb => hsnot ((List.mem_singleton.mp hb) ▸ ha)⟩
        have hnew2 : ∀ u ∈ checked ++ [s], u < t.length := by
          intro u hu
          rcases List.mem_append.mp hu with hu | hu
          · exact h2 u hu
          · exact (List.mem_singleton.mp hu) ▸ h3
        have hnew3 : t.length < (checked ++ [s]).length + fuel := by
          rw [List.length_append]
          simp only [List.length_singleton]
          omega
        have hbs : ∀ v ∈ e.branchTargets, v < t.length :=
          fun v hv => branchTarget_lt t hWF e hemem v hv
        obtain ⟨b, c', hc', hn, hbd, Δ, hΔ⟩ :=
          hbranch e.branchTargets hbs (checked ++ [s]) hnew1 hnew2 hnew3
        refine ⟨b, c', hc', hn, hbd, s :: Δ, ?_⟩
        rw [hΔ, List.append_assoc]
        rfl

theorem isDeadState_total (t : DTable) (hWF : WFTable t) (fuel s : Nat)
    (hs : s < t.length) (hfuel : t.length < fuel) :
    (isDeadStateF t fuel s).isSome := by
  obtain ⟨b, c', hc', _, _, _⟩ :=
    isDeadRec_total t hWF fuel s [] (by simp) (by simp) hs (by simpa using hfuel)
  rw [isDeadStateF, hc']
  rfl

theorem vwlGo_isSome (t : DTable) (hWF : WFTable t) (fuel : Nat)
    (hfuel : t.length < fuel) (word : List Char) :
    ∀ rem i state lv, state < t.length →
      (vwlGo t fuel word rem i state lv).isSome := by
  intro rem
  induction rem with
  | zero =>
    intro i state lv _
    rw [vwlGo]
    rfl
  | succ rem ih =>
    intro i state lv hs
    rw [vwlGo]
    match hw : word.get? i with
    | none => simp [hw]
    | some c =>
      simp only [hw]
      obtain ⟨e, he, hemem⟩ := get?_some_of_lt t state hs
      simp only [he]
      match hg : e.get c with
      | none => simp [hg]
      | some target =>
        simp only [hg]
        have htlt : target < t.length :=
          branchTarget_lt t hWF e hemem target (get_mem_branchTargets e c target hg)
        have hds := isDeadState_total t hWF fuel target htlt hfuel
        match hd : isDeadStateF t fuel target with
        | none => rw [hd] at hds; exact absurd hds (by simp)
        | some true => simp [hd]
        | some false =>
          simp only [hd]
          obtain ⟨e2, he2, _⟩ := get?_some_of_lt t target htlt
          simp only [he2]
          exact ih (i + 1) target _ htlt

theorem isValidWordGo_isSome (t : DTable) (hWF : WFTable t) :
    ∀ word state, state < t.length → (isValidWordGo t state word).isSome := by
  intro word
  induction word with
  | nil =>
    intro state hs
    obtain ⟨e, he, _⟩ := get?_some_of_lt t state hs
    rw [isValidWordGo, he]
    rfl
  | cons c rest ih =>
    intro state hs
    obtain ⟨e, he, hemem⟩ := get?_some_of_lt t state hs
    rw [isValidWordGo]
    simp only [he]
    match hg : e.get c with
    | none => simp [hg]
    | some s2 =>
      simp only [hg]
      exact ih s2 (branchTarget_lt t hWF e hemem s2 (get_mem_branchTargets e c s2 hg))

theorem findAllGo_isSome (t : DTable) (hWF : WFTable t) (h0 : 0 < t.length)
    (fuel : Nat) (hfuel : t.length < fuel) (word : List Char) :
    ∀ rem i valid, word.length ≤ i + rem →
      (findAllGo t fuel word rem i valid).isSome := by
  intro rem
  induction rem with
  | zero =>
    intro i valid hbound
    rw [findAllGo, if_neg (by omega)]
    rfl
  | succ rem ih =>
    intro i valid hbound
    rw [findAllGo]
    by_cases hi : i < word.length
    · rw [if_pos hi]
      have hv := vwlGo_isSome t hWF fuel hfuel word (word.length - i) i 0 none h0
      match hvv : validWordLengthF t fuel word i with
      | none =>
        have hvv2 := hvv
        rw [validWordLengthF] at hvv2
        rw [hvv2] at hv
        exact absurd hv (by simp)
      | some none =>
        simp only [hvv]
        exact ih (i + 1) valid (by omega)
      | some (some x) =>
        simp only [hvv]
        have hvv2 := hvv
        rw [validWordLengthF] at hvv2
        have hx : i ≤ x := by
          rcases vwlGo_some_walk t fuel word (word.length - i) i 0 none x hvv2
            with hbad | ⟨h1, _, _⟩
          · exact absurd hbad (by simp)
          · exact h1
        exact ih (x + 1) _ (by omega)
    · rw [if_neg hi]
      rfl

/-- Claim C7: on a well-formed DFA table (flag keys present, transition
targets in range — the shape the compiler produces) and enough fuel for
the dead-state search, `IsValidWord` and `FindAll` return normally for
every input word, including words using symbols outside the alphabet. -/
theorem c7_matchers_return (t : DTable) (word : List Char) (fuel : Nat)
    (hWF : WFTable t) (h0 : 0 < t.length) (hfuel : t.length < fuel) :
    (isValidWord t word).isSome ∧ (findAllF t fuel word).isSome :=
  ⟨isValidWordGo_isSome t hWF word 0 h0,
   findAllGo_isSome t hWF h0 fuel hfuel word word.length 0 [] (by omega)⟩

/-- Witness for C7: the compiled `a|ab` table is well-formed, and both
matchers return on the word `xab`, whose first symbol is outside the
alphabet. -/
theorem c7_matchers_return_witness :
    (WFTable abDFA ∧ 0 < abDFA.length ∧ abDFA.length < 20) ∧
    ((isValidWord abDFA (['x', 'a', 'b'] : List Char)).isSome ∧
      (findAllF abDFA 20 (['x', 'a', 'b'] : List Char)).isSome) :=
  ⟨⟨by decide, by decide, by decide⟩,
   c7_matchers_return abDFA (['x', 'a', 'b'] : List Char) 20
     (by decide) (by decide) (by decide)⟩

/-! ### C6: FindAll is the leftmost-longest scan -/

/-- The deterministic walk of the DFA table (the spec's "run of
symbols"): follow one transition per character, failing on a missing
entry or transition. -/
def specRun (t : DTable) : Nat → List Char → Option Nat
  | s, [] => some s
  | s, c :: rest =>
    match t.get? s with
    | none => none
    | some e =>
      match e.get c with
      | none => none
      | some s2 => specRun t s2 rest

theorem specRun_append (t : DTable) (u v : List Char) :
    ∀ s, specRun t s (u ++ v) =
      (specRun t s u).bind (fun s2 => specRun t s2 v) := by
  induction u with
  | nil => intro s; rfl
  | cons c rest ih =>
    intro s
    rw [List.cons_append, specRun, specRun]
    match hts : t.get? s with
    | none => rfl
    | some e =>
      simp only
      match hg : e.get c with
      | none => rfl
      | some s2 => exact ih s2

/-- A state with an entry, no `end` flag and no symbol keys: trivially
dead. -/
def Leaf (t : DTable) (u : Nat) : Prop :=
  ∃ e, t.get? u = some e ∧ e.endFlag = false ∧ e.branchTargets = []

/-- A state whose entry is non-accepting and whose successors all lie in
`C` or are leaves. -/
def GoodIn (t : DTable) (C : List Nat) (u : Nat) : Prop :=
  ∃ e, t.get? u = some e ∧ e.endFlag = false ∧
    ∀ v ∈ e.branchTargets, v ∈ C ∨ Leaf t v

theorem goodIn_mono (t : DTable) (C C2 : List Nat) (hsub : ∀ x ∈ C, x ∈ C2)
    (u : Nat) (h : GoodIn t C u) : GoodIn t C2 u := by
  obtain ⟨e, h1, h2, h3⟩ := h
  exact ⟨e, h1, h2, fun v hv => (h3 v hv).imp (hsub v) id⟩

theorem keyCount_two_iff (e : DEntry) (hf : e.hasFlags = true) :
    (e.keyCount == 2) = true ↔ e.branchTargets = [] := by
  rw [DEntry.keyCount, DEntry.branchTargets, hf]
  simp only [if_true, beq_iff_eq, List.map_eq_nil_iff, List.append_eq_nil]
  constructor
  · intro h
    have h1 : e.syms.length = 0 := by omega
    have h2 : e.late.length = 0 := by omega
    exact ⟨List.eq_nil_of_length_eq_zero h1, List.eq_nil_of_length_eq_zero h2⟩
  · rintro ⟨h1, h2⟩
    rw [h1, h2]
    rfl

/-- Soundness core of `IsDeadStateRecursive`: a `true` verdict yields an
extension of `checked` all of whose fresh members are non-accepting with
successors back inside the final `checked` list (or trivially dead). -/
theorem isDeadRec_sound_aux (t : DTable) (hWF : WFTable t) :
    ∀ fuel s checked b checked',
      isDeadRecF t fuel s checked = some (b, checked') →
      (∃ Δ, checked' = checked ++ Δ) ∧
      (b = true →
        (s ∈ checked' ∨ Leaf t s) ∧
        ∀ u, u ∈ checked' → u ∉ checked → GoodIn t checked' u) := by
  intro fuel
  induction fuel with
  | zero =>
    intro s checked b checked' h
    rw [isDeadRecF] at h
    exact Option.noConfusion h
  | succ fuel ih =>
    intro s checked b checked' h
    rw [isDeadRecF] at h
    match hts : t.get? s with
    | none =>
      rw [hts] at h
      exact Option.noConfusion h
    | some e =>
      simp only [hts] at h
      have hemem := mem_of_get?_some t s e hts
      by_cases hend : e.endFlag = true
      · rw [if_pos hend] at h
        rw [Option.some_inj, Prod.mk.injEq] at h
        obtain ⟨h1, h2⟩ := h
        subst h1
        subst h2
        exact ⟨⟨[], by simp⟩, fun hb => Bool.noConfusion hb⟩
      · rw [if_neg hend] at h
        have hendf : e.endFlag = false := Bool.not_eq_true e.endFlag ▸ hend
        by_cases hk : (e.keyCount == 2 || checked.contains s) = true
        · rw [if_pos hk] at h
          rw [Option.some_inj, Prod.mk.injEq] at h
          obtain ⟨h1, h2⟩ := h
          subst h1
          subst h2
          refine ⟨⟨[], by simp⟩, fun _ => ⟨?_, fun u hu hnu => absurd hu hnu⟩⟩
          rcases Bool.or_eq_true _ _ ▸ hk with hk2 | hk2
          · exact Or.inr ⟨e, hts, hendf,
              (keyCount_two_iff e (hWF e hemem).1).mp hk2⟩
          · exact Or.inl ((contains_iff_mem checked s).mp hk2)
        · rw [if_neg hk] at h
          have hbr : ∀ branches checked2 b2 checked2',
              isDeadBranches (isDeadRecF t fuel) checked2 branches =
                some (b2, checked2') →
              (∃ Δ, checked2' = checked2 ++ Δ) ∧
              (b2 = true →
                (∀ v ∈ branches, v ∈ checked2' ∨ Leaf t v) ∧
                ∀ u, u ∈ checked2' → u ∉ checked2 → GoodIn t checked2' u) := by
            intro branches
            induction branches with
            | nil =>
              intro checked2 b2 checked2' hb
              rw [isDeadBranches] at hb
              rw [Option.some_inj, Prod.mk.injEq] at hb
              obtain ⟨h1, h2⟩ := hb
              subst h1
              subst h2
              exact ⟨⟨[], by simp⟩,
                fun _ => ⟨fun v hv => absurd hv (List.not_mem_nil v),
                  fun u hu hnu => absurd hu hnu⟩⟩
            | cons v rest ihb =>
              intro checked2 b2 checked2' hb
              rw [isDeadBranches] at hb
              match hr : isDeadRecF t fuel v checked2 with
              | none =>
                rw [hr] at hb
                exact Option.noConfusion hb
              | some (false, c2) =>
                simp only [hr] at hb
                rw [Option.some_inj, Prod.mk.injEq] at hb
                obtain ⟨h1, h2⟩ := hb
                subst h1
                subst h2
                exact ⟨(ih v checked2 false c2 hr).1,
                  fun hb2 => Bool.noConfusion hb2⟩
              | some (true, c2) =>
                simp only [hr] at hb
                obtain ⟨⟨Δ1, hΔ1⟩, hmain⟩ := ih v checked2 true c2 hr
                obtain ⟨hv2, hgood2⟩ := hmain rfl
                obtain ⟨⟨Δ2, hΔ2⟩, hrest⟩ := ihb c2 b2 checked2' hb
                have hsub : ∀ x ∈ c2, x ∈ checked2' := by
                  intro x hx
                  rw [hΔ2]
                  exact List.mem_append.mpr (Or.inl hx)
                refine ⟨⟨Δ1 ++ Δ2, by rw [hΔ2, hΔ1, List.append_assoc]⟩, ?_⟩
                intro hb2
                obtain ⟨hrests, hgoodr⟩ := hrest hb2
                refine ⟨?_, ?_⟩
                · intro v2 hv3
                  rcases List.mem_cons.mp hv3 with hv3 | hv3
                  · subst hv3
                    exact hv2.imp (hsub v2) id
                  · exact hrests v2 hv3
                · intro u hu hnu
                  by_cases hu2 : u ∈ c2
                  · exact goodIn_mono t c2 checked2' hsub u (hgood2 u hu2 hnu)
                  · exact hgoodr u hu hu2
          obtain ⟨⟨Δ, hΔ⟩, htrue⟩ :=
            hbr e.branchTargets (checked ++ [s]) b checked' h
          have hsmem : s ∈ checked' := by
            rw [hΔ]
            exact List.mem_append.mpr
              (Or.inl (List.mem_append.mpr (Or.inr (List.mem_singleton.mpr rfl))))
          refine ⟨⟨s :: Δ, by rw [hΔ, List.append_assoc]; rfl⟩, ?_⟩
          intro hb2
          obtain ⟨hbrs, hgood⟩ := htrue hb2
          refine ⟨Or.inl hsmem, ?_⟩
          intro u hu hnu
          by_cases hus : u = s
          · subst hus
            exact ⟨e, hts, hendf, hbrs⟩
          · refine hgood u hu ?_
            intro hu2
            rcases List.mem_append.mp hu2 with hu2 | hu2
            · exact hnu hu2
            · exact hus (List.mem_singleton.mp hu2)

/-- A `true` verdict of `IsDeadState` exhibits a closed set of
non-accepting states containing (or trivially covering) the state. -/
theorem isDeadState_closed (t : DTable) (hWF : WFTable t) (fuel s : Nat)
    (h : isDeadStateF t fuel s = some true) :
    ∃ C, (s ∈ C ∨ Leaf t s) ∧ ∀ u ∈ C, GoodIn t C u := by
  rw [isDeadStateF] at h
  match hr : isDeadRecF t fuel s [] with
  | none =>
    rw [hr] at h
    exact Option.noConfusion h
  | some (b, c2) =>
    rw [hr] at h
    simp only [Option.map] at h
    injection h with h
    subst h
    obtain ⟨_, htrue⟩ := isDeadRec_sound_aux t hWF fuel s [] true c2 hr
    obtain ⟨hs, hgood⟩ := htrue rfl
    exact ⟨c2, hs, fun u hu => hgood u hu (List.not_mem_nil u)⟩

/-- Walks starting inside a closed set stay inside it. -/
theorem closed_reach (t : DTable) (C : List Nat)
    (hC : ∀ u ∈ C, GoodIn t C u) :
    ∀ chars u s2, (u ∈ C ∨ Leaf t u) → specRun t u chars = some s2 →
      s2 ∈ C ∨ Leaf t s2 := by
  intro chars
  induction chars with
  | nil =>
    intro u s2 hu h
    rw [specRun] at h
    injection h with h
    exact h ▸ hu
  | cons c rest ih =>
    intro u s2 hu h
    rw [specRun] at h
    match hts : t.get? u with
    | none =>
      rw [hts] at h
      exact Option.noConfusion h
    | some e =>
      simp only [hts] at h
      match hg : e.get c with
      | none =>
        rw [hg] at h
        exact Option.noConfusion h
      | some v =>
        simp only [hg] at h
        have hv : v ∈ C ∨ Leaf t v := by
          rcases hu with hu | hu
          · obtain ⟨e2, h1, _, h3⟩ := hC u hu
            rw [hts, Option.some_inj] at h1
            subst h1
            exact h3 v (get_mem_branchTargets e c v hg)
          · obtain ⟨e2, h1, _, h3⟩ := hu
            rw [hts, Option.some_inj] at h1
            subst h1
            exact absurd (h3 ▸ get_mem_branchTargets e c v hg)
              (List.not_mem_nil v)
        exact ih v s2 hv h

/-- Soundness of the dead-state check: from a state reported dead, no
walk ever reaches an accepting entry. -/
theorem deadState_no_accept (t : DTable) (hWF : WFTable t) (fuel s : Nat)
    (hdead : isDeadStateF t fuel s = some true) :
    ∀ chars s2 e2, specRun t s chars = some s2 → t.get? s2 = some e2 →
      e2.endFlag = false := by
  intro chars s2 e2 hrun hget
  obtain ⟨C, hs, hC⟩ := isDeadState_closed t hWF fuel s hdead
  rcases closed_reach t C hC chars s s2 hs hrun with h | h
  · obtain ⟨e3, h1, h2, _⟩ := hC s2 h
    rw [hget, Option.some_inj] at h1
    exact h1 ▸ h2
  · obtain ⟨e3, h1, h2, _⟩ := h
    rw [hget, Option.some_inj] at h1
    exact h1 ▸ h2

/-- The spec's acceptance test for a run ending at position `x`: the run
of symbols `word[start..x]` walks from state 0 to an accepting entry. -/
def acceptsEndingAt (t : DTable) (word : List Char) (start x : Nat) : Bool :=
  match specRun t 0 ((word.drop start).take (x + 1 - start)) with
  | none => false
  | some s =>
    match t.get? s with
    | none => false
    | some e => e.endFlag

/-- The spec's "longest run of symbols that ends in an accepting state":
the largest end position in `[i, word.length)` accepted from `start`
(searched here from the top index down). -/
def lastAcceptedEnd (t : DTable) (word : List Char) (start : Nat) :
    Nat → Nat → Option Nat
  | 0, _ => none
  | rem + 1, i =>
    if i < word.length then
      match lastAcceptedEnd t word start rem (i + 1) with
      | some v => some v
      | none => if acceptsEndingAt t word start i then some i else none
    else none

def specLongestEnd (t : DTable) (word : List Char) (start : Nat) : Option Nat :=
  lastAcceptedEnd t word start (word.length - start) start

/-- The spec's find-all scan: left to right; at each offset take the
longest accepted run; on a match record the span and resume right after
it, otherwise advance one symbol; keep the first occurrence of each
distinct span. -/
def specFindAllGo (t : DTable) (word : List Char) :
    Nat → Nat → List (List Char) → List (List Char)
  | 0, _, valid => valid
  | rem + 1, i, valid =>
    if i < word.length then
      match specLongestEnd t word i with
      | none => specFindAllGo t word rem (i + 1) valid
      | some x =>
        specFindAllGo t word rem (x + 1)
          (if valid.contains (sliceWord word i x) then valid
           else valid ++ [sliceWord word i x])
    else valid

def specFindAll (t : DTable) (word : List Char) : List (List Char) :=
  specFindAllGo t word word.length 0 []

theorem lastAcc_none_of_all_false (t : DTable) (word : List Char)
    (start : Nat) :
    ∀ rem i, (∀ x, i ≤ x → acceptsEndingAt t word start x = false) →
      lastAcceptedEnd t word start rem i = none := by
  intro rem
  induction rem with
  | zero => intro i _; rfl
  | succ rem ih =>
    intro i hall
    rw [lastAcceptedEnd]
    by_cases hi : i < word.length
    · rw [if_pos hi, ih (i + 1) (fun x hx => hall x (by omega)),
        hall i (Nat.le_refl i)]
      rfl
    · rw [if_neg hi]

theorem lastAcc_bounds (t : DTable) (word : List Char) (start : Nat) :
    ∀ rem i v, lastAcceptedEnd t word start rem i = some v →
      i ≤ v ∧ v < word.length ∧ acceptsEndingAt t word start v = true := by
  intro rem
  induction rem with
  | zero => intro i v h; exact Option.noConfusion h
  | succ rem ih =>
    intro i v h
    rw [lastAcceptedEnd] at h
    by_cases hi : i < word.length
    · rw [if_pos hi] at h
      match hr : lastAcceptedEnd t word start rem (i + 1) with
      | some v2 =>
        simp only [hr] at h
        injection h with h
        obtain ⟨h1, h2, h3⟩ := ih (i + 1) v2 hr
        subst h
        exact ⟨by omega, h2, h3⟩
      | none =>
        simp only [hr] at h
        by_cases hacc : acceptsEndingAt t word start i = true
        · rw [if_pos hacc] at h
          injection h with h
          subst h
          exact ⟨Nat.le_refl i, hi, hacc⟩
        · rw [if_neg hacc] at h
          exact Option.noConfusion h
    · rw [if_neg hi] at h
      exact Option.noConfusion h

theorem lastAcc_complete (t : DTable) (word : List Char) (start : Nat) :
    ∀ rem i, word.length ≤ i + rem →
      ∀ y, i ≤ y → y < word.length →
        acceptsEndingAt t word start y = true →
        ∃ v, lastAcceptedEnd t word start rem i = some v ∧ y ≤ v := by
  intro rem
  induction rem with
  | zero =>
    intro i hcov y h1 h2 _
    omega
  | succ rem ih =>
    intro i hcov y h1 h2 hacc
    rw [lastAcceptedEnd]
    have hi : i < word.length := by omega
    rw [if_pos hi]
    by_cases hy : i = y
    · subst hy
      match hr : lastAcceptedEnd t word start rem (i + 1) with
      | some v2 =>
        simp only [hr]
        have hb := (lastAcc_bounds t word start rem (i + 1) v2 hr).1
        exact ⟨v2, rfl, by omega⟩
      | none =>
        simp only [hr]
        rw [if_pos hacc]
        exact ⟨i, rfl, Nat.le_refl i⟩
    · obtain ⟨v2, hv2, hyv2⟩ := ih (i + 1) (by omega) y (by omega) h2 hacc
      simp only [hv2]
      exact ⟨v2, rfl, hyv2⟩

theorem slice_split (word : List Char) (start i x : Nat)
    (h1 : start ≤ i) (h2 : i ≤ x + 1) :
    (word.drop start).take (x + 1 - start) =
      (word.drop start).take (i - start) ++ (word.drop i).take (x + 1 - i) := by
  rw [show x + 1 - start = (i - start) + (x + 1 - i) by omega, List.take_add,
    List.drop_drop, show start + (i - start) = i by omega]

/-- `ValidWordLength`'s inner loop computes exactly the longest accepted
end position at or after `i` (or keeps the carried `lastValid` when there
is none): the walk records every accepting position it passes, and the
two early exits — missing transition and dead target — are sound because
no later end position can then be accepted. -/
theorem vwlGo_eq_lastAcc (t : DTable) (hWF : WFTable t) (fuel : Nat)
    (hfuel : t.length < fuel) (word : List Char) (start : Nat) :
    ∀ rem i state lv, state < t.length → start ≤ i →
      specRun t 0 ((word.drop start).take (i - start)) = some state →
      vwlGo t fuel word rem i state lv =
        some (match lastAcceptedEnd t word start rem i with
          | some v => some v
          | none => lv) := by
  intro rem
  induction rem with
  | zero =>
    intro i state lv _ _ _
    rw [vwlGo, lastAcceptedEnd]
  | succ rem ih =>
    intro i state lv hs hsi hpath
    rw [vwlGo, lastAcceptedEnd]
    match hw : word.get? i with
    | none =>
      have hge : ¬ i < word.length := by
        have := List.get?_eq_none.mp hw
        omega
      simp only [hw]
      rw [if_neg hge]
    | some c =>
      have hilen : i < word.length := by
        by_contra hge
        rw [List.get?_eq_none.mpr (by omega)] at hw
        exact Option.noConfusion hw
      simp only [hw]
      rw [if_pos hilen]
      obtain ⟨e, he, hemem⟩ := get?_some_of_lt t state hs
      simp only [he]
      have hdrop : word.drop i = c :: word.drop (i + 1) := by
        have hx := List.getElem?_eq_some.mp (List.get?_eq_getElem? word i ▸ hw)
        obtain ⟨hlt, hval⟩ := hx
        rw [List.drop_eq_getElem_cons hlt, hval]
      have hsplit1 : (word.drop start).take (i + 1 - start) =
          (word.drop start).take (i - start) ++ [c] := by
        rw [slice_split word start i i hsi (by omega), hdrop]
        rw [show i + 1 - i = 1 by omega]
        rfl
      have hsplitx : ∀ x, i ≤ x →
          (word.drop start).take (x + 1 - start) =
            (word.drop start).take (i - start) ++
              (c :: (word.drop (i + 1)).take (x - i)) := by
        intro x hx
        rw [slice_split word start i x hsi (by omega), hdrop]
        rw [show x + 1 - i = (x - i) + 1 by omega]
        rfl
      match hg : e.get c with
      | none =>
        simp only [hg]
        have hfail : ∀ x, i ≤ x → acceptsEndingAt t word start x = false := by
          intro x hx
          rw [acceptsEndingAt, hsplitx x hx, specRun_append, hpath]
          simp only [Option.some_bind]
          rw [specRun]
          simp only [he, hg]
        rw [lastAcc_none_of_all_false t word start rem (i + 1)
          (fun x hx => hfail x (by omega)), hfail i (Nat.le_refl i)]
        rfl
      | some target =>
        simp only [hg]
        have htlt : target < t.length :=
          branchTarget_lt t hWF e hemem target
            (get_mem_branchTargets e c target hg)
        have hpath2 : specRun t 0 ((word.drop start).take (i + 1 - start)) =
            some target := by
          rw [hsplit1, specRun_append, hpath]
          simp only [Option.some_bind]
          rw [specRun]
          simp only [he, hg]
          rw [specRun]
        have hds := isDeadState_total t hWF fuel target htlt hfuel
        match hd : isDeadStateF t fuel target with
        | none => rw [hd] at hds; exact absurd hds (by simp)
        | some true =>
          simp only [hd]
          have hfail : ∀ x, i ≤ x → acceptsEndingAt t word start x = false := by
            intro x hx
            rw [acceptsEndingAt, hsplitx x hx, specRun_append, hpath]
            simp only [Option.some_bind]
            rw [specRun]
            simp only [he, hg]
            match hrun : specRun t target ((word.drop (i + 1)).take (x - i)) with
            | none => rfl
            | some s2 =>
              simp only [hrun]
              match hget : t.get? s2 with
              | none => rfl
              | some e2 =>
                simp only [hget]
                exact deadState_no_accept t hWF fuel target hd
                  ((word.drop (i + 1)).take (x - i)) s2 e2 hrun hget
          rw [lastAcc_none_of_all_false t word start rem (i + 1)
            (fun x hx => hfail x (by omega)), hfail i (Nat.le_refl i)]
          rfl
        | some false =>
          simp only [hd]
          obtain ⟨e2, he2, _⟩ := get?_some_of_lt t target htlt
          simp only [he2]
          have hacc_i : acceptsEndingAt t word start i = e2.endFlag := by
            rw [acceptsEndingAt, hpath2]
            simp only [he2]
          rw [ih (i + 1) target (if e2.endFlag = true then some i else lv) htlt
            (by omega) hpath2]
          match hr : lastAcceptedEnd t word start rem (i + 1) with
          | some v => simp only [hr]
          | none =>
            simp only [hr]
            rw [hacc_i]
            by_cases hef : e2.endFlag = true
            · rw [if_pos hef, if_pos hef]
            · rw [if_neg hef, if_neg hef]

/-- `ValidWordLength(word, start)` returns exactly the spec's longest
accepted end position at or after `start` (`none` standing for the JS
`-1`). -/
theorem vwl_eq_specLongestEnd (t : DTable) (hWF : WFTable t)
    (h0 : 0 < t.length) (fuel : Nat) (hfuel : t.length < fuel)
    (word : List Char) (start : Nat) :
    validWordLengthF t fuel word start = some (specLongestEnd t word start) := by
  rw [validWordLengthF, specLongestEnd]
  rw [vwlGo_eq_lastAcc t hWF fuel hfuel word start (word.length - start) start 0
    none h0 (Nat.le_refl start) (by rw [show start - start = 0 by omega]; rfl)]
  match hr : lastAcceptedEnd t word start (word.length - start) start with
  | some v => simp only [hr]
  | none => simp only [hr]

theorem findAllGo_eq_spec (t : DTable) (hWF : WFTable t) (h0 : 0 < t.length)
    (fuel : Nat) (hfuel : t.length < fuel) (word : List Char) :
    ∀ rem i valid, word.length ≤ i + rem →
      findAllGo t fuel word rem i valid =
        some (specFindAllGo t word rem i valid) := by
  intro rem
  induction rem with
  | zero =>
    intro i valid hbound
    rw [findAllGo, specFindAllGo, if_neg (by omega)]
  | succ rem ih =>
    intro i valid hbound
    rw [findAllGo, specFindAllGo]
    by_cases hi : i < word.length
    · rw [if_pos hi, if_pos hi]
      rw [vwl_eq_specLongestEnd t hWF h0 fuel hfuel word i]
      match hr : specLongestEnd t word i with
      | none =>
        simp only [hr]
        exact ih (i + 1) valid (by omega)
      | some x =>
        simp only [hr]
        have hr2 := hr
        rw [specLongestEnd] at hr2
        have hx := (lastAcc_bounds t word i (word.length - i) i x hr2).1
        exact ih (x + 1) _ (by omega)
    · rw [if_neg hi, if_neg hi]

/-- Claim C6: on a well-formed table with enough fuel, `FindAll` computes
exactly the spec's left-to-right, leftmost-longest scan with
first-occurrence deduplication; and `ValidWordLength` is leftmost-longest
in the precise sense that a returned end position is accepted while every
longer end position is not, and a `-1` means no end position at all is
accepted from that offset. -/
theorem c6_findall_leftmost_longest (t : DTable) (fuel : Nat)
    (word : List Char) (hWF : WFTable t) (h0 : 0 < t.length)
    (hfuel : t.length < fuel) :
    findAllF t fuel word = some (specFindAll t word) ∧
    (∀ i x, validWordLengthF t fuel word i = some (some x) →
      i ≤ x ∧ x < word.length ∧ acceptsEndingAt t word i x = true ∧
      ∀ y, x < y → y < word.length → acceptsEndingAt t word i y = false) ∧
    (∀ i, validWordLengthF t fuel word i = some none →
      ∀ y, i ≤ y → y < word.length → acceptsEndingAt t word i y = false) := by
  refine ⟨findAllGo_eq_spec t hWF h0 fuel hfuel word word.length 0 []
    (by omega), ?_, ?_⟩
  · intro i x h
    have hv := vwl_eq_specLongestEnd t hWF h0 fuel hfuel word i
    rw [h] at hv
    injection hv with hv
    have hsl : specLongestEnd t word i = some x := hv.symm
    rw [specLongestEnd] at hsl
    obtain ⟨h1, h2, h3⟩ := lastAcc_bounds t word i (word.length - i) i x hsl
    refine ⟨h1, h2, h3, ?_⟩
    intro y hxy hylen
    cases hacc2 : acceptsEndingAt t word i y with
    | false => rfl
    | true =>
      obtain ⟨v, hv2, hyv⟩ := lastAcc_complete t word i (word.length - i) i
        (by omega) y (by omega) hylen hacc2
      rw [hv2] at hsl
      injection hsl with hsl
      exact absurd hyv (by omega)
  · intro i h
    have hv := vwl_eq_specLongestEnd t hWF h0 fuel hfuel word i
    rw [h] at hv
    injection hv with hv
    have hsl : specLongestEnd t word i = none := hv.symm
    rw [specLongestEnd] at hsl
    intro y hiy hylen
    cases hacc2 : acceptsEndingAt t word i y with
    | false => rfl
    | true =>
      obtain ⟨v, hv2, _⟩ := lastAcc_complete t word i (word.length - i) i
        (by omega) y hiy hylen hacc2
      rw [hv2] at hsl
      exact Option.noConfusion hsl

/-- Witness for C6: the compiled `a|ab` table on the scenario word
`aababb`.  The code's scan equals the spec scan, whose value is
`[['a','b']]` — at offset 1 both `a` and `ab` start, and the recorded
span is the longer `ab` (here because the tree builder compiled `a|ab`
as `(a|a)b`, the single-`a` run is not even accepted). -/
theorem c6_findall_leftmost_longest_witness :
    (WFTable abDFA ∧ 0 < abDFA.length ∧ abDFA.length < 20) ∧
    (findAllF abDFA 20 (['a', 'a', 'b', 'a', 'b', 'b'] : List Char) =
        some (specFindAll abDFA (['a', 'a', 'b', 'a', 'b', 'b'] : List Char)) ∧
      (∀ i x, validWordLengthF abDFA 20
          (['a', 'a', 'b', 'a', 'b', 'b'] : List Char) i = some (some x) →
        i ≤ x ∧ x < (['a', 'a', 'b', 'a', 'b', 'b'] : List Char).length ∧
        acceptsEndingAt abDFA (['a', 'a', 'b', 'a', 'b', 'b'] : List Char) i x
          = true ∧
        ∀ y, x < y → y < (['a', 'a', 'b', 'a', 'b', 'b'] : List Char).length →
          acceptsEndingAt abDFA (['a', 'a', 'b', 'a', 'b', 'b'] : List Char) i y
            = false) ∧
      (∀ i, validWordLengthF abDFA 20
          (['a', 'a', 'b', 'a', 'b', 'b'] : List Char) i = some none →
        ∀ y, i ≤ y → y < (['a', 'a', 'b', 'a', 'b', 'b'] : List Char).length →
          acceptsEndingAt abDFA (['a', 'a', 'b', 'a', 'b', 'b'] : List Char) i y
            = false)) ∧
    specFindAll abDFA (['a', 'a', 'b', 'a', 'b', 'b'] : List Char) =
      [['a', 'b']] :=
  ⟨⟨by decide, by decide, by decide⟩,
   c6_findall_leftmost_longest abDFA 20 (['a', 'a', 'b', 'a', 'b', 'b'] : List Char)
     (by decide) (by decide) (by decide),
   by decide⟩

end RegexJS
